import Mathlib

/-!
# Verification of the jsoncsvconverter core (`src/tool.py`)

A shallow embedding of the pure core of the JSON ↔ CSV converter:

* the Python string / number primitives the tool relies on (`str.strip`,
  `str.lower`, `int(...)`, `float(...)`),
* a model of the `csv` module's default-dialect writer and reader
  (RFC-4180-style quoting, `\r\n` line terminator, `DictReader` row
  dictionaries with `restval = None` for short rows),
* the tool's own functions, keeping their source names:
  `infer_fields_from_json`, `infer_fields_from_csv`, `json_to_csv_text`,
  `maybe_parse_scalar`, `csv_text_to_json`, and the comparison performed
  by `cmd_verify`.

Scalars are modelled with a tagged union.  Python floats are represented
by their (already canonical, shortest-repr) source token: no theorem in
this file depends on float arithmetic or on numeric equality between a
float and another number, only on which variant a decode produces.
Character-level primitives model the ASCII fragment of Python's Unicode
behaviour (`str.strip`, `int`, `float` also accept non-ASCII digits and
whitespace); every concrete input used below is ASCII.
-/

deriving instance DecidableEq for Except

namespace JsonCsv

/-- Error kinds of the tool, following the specification's taxonomy.
In the source all of these are `ValueError`s with distinct messages,
except `attributeError` (an uncaught `AttributeError`, see
`maybe_parse_scalar` applied to `None`). -/
inductive Err where
  | schemaError
  | validationError
  | attributeError
  deriving DecidableEq, Repr

/-- A scalar record value: Python `str`, `int`, `float`, `bool` or `None`.
A float is carried as its decimal token (the canonical `repr` form);
see the file header for the scope of this modelling choice. -/
inductive Scalar where
  | str (s : String)
  | int (n : Int)
  | float (tok : String)
  | bool (b : Bool)
  | null
  deriving DecidableEq, Repr

/-- ASCII whitespace stripped by Python's `str.strip()`:
space, `\t`, `\n`, `\r`, `\x0b` (VT), `\x0c` (FF). -/
def pyIsSpace (c : Char) : Bool :=
  c = ' ' || c = '\t' || c = '\n' || c = '\r' ||
  c = Char.ofNat 11 || c = Char.ofNat 12

/-- Python `s.strip()`: drop leading and trailing whitespace. -/
def pyStrip (s : String) : String :=
  ⟨(((s.data.dropWhile pyIsSpace).reverse.dropWhile pyIsSpace).reverse)⟩

/-- Python `s.lower()` on the ASCII range. -/
def pyLower (s : String) : String :=
  ⟨s.data.map Char.toLower⟩

def isAsciiDigit (c : Char) : Bool := '0' ≤ c && c ≤ '9'

/-- Digit run continuation for Python numeric literals: after one digit,
further digits, with single underscores allowed only between digits. -/
def digitsRest : List Char → Bool
  | [] => true
  | '_' :: rest =>
    match rest with
    | c :: rest' => isAsciiDigit c && digitsRest rest'
    | [] => false
  | c :: rest => isAsciiDigit c && digitsRest rest

/-- A nonempty ASCII digit run with single underscores between digits
(the digit part of Python's `int(...)` grammar). -/
def digitsU : List Char → Bool
  | [] => false
  | c :: rest => isAsciiDigit c && digitsRest rest

/-- Numeric value of a digit run, ignoring underscores. -/
def digitsVal (cs : List Char) : Nat :=
  cs.foldl (fun acc c => if c = '_' then acc else acc * 10 + (c.toNat - '0'.toNat)) 0

/-- Strip an optional `+`/`-` sign: returns whether the value is
non-negative, and the remaining characters. -/
def pyIntSign : List Char → Bool × List Char
  | '+' :: rest => (true, rest)
  | '-' :: rest => (false, rest)
  | cs => (true, cs)

/-- Core of Python `int(...)` on an already-stripped argument (`int`
strips whitespace itself, but the tool only calls it on the result of
`str.strip()`): an optional sign, then a digit run with underscores. -/
def pyIntCore (cs : List Char) : Option Int :=
  let (pos, body) := pyIntSign cs
  if digitsU body then
    some (if pos then (digitsVal body : Int) else -(digitsVal body : Int))
  else none

/-- Python `int(s)` for the stripped strings the tool passes to it.
Returns `none` on `ValueError`. -/
def pyParseInt (s : String) : Option Int :=
  pyIntCore s.data

/-- Whether a stripped string matches Python's `int` grammar: optional
`+` or `-` sign, then digits with underscores. -/
def pyIntOk (t : String) : Bool :=
  digitsU (pyIntSign t.data).2

/-- The integer value of a string matching Python's `int` grammar. -/
def pyIntVal (t : String) : Int :=
  let (pos, body) := pyIntSign t.data
  if pos then (digitsVal body : Int) else -(digitsVal body : Int)

/-- The integer grammar exactly as the specification words it: an
optional leading `-` followed by digits (no `+` sign, no underscores). -/
def specIntOk (t : String) : Bool :=
  match t.data with
  | '-' :: rest => !rest.isEmpty && rest.all isAsciiDigit
  | cs => !cs.isEmpty && cs.all isAsciiDigit

/-- Integer value under the specification's grammar. -/
def specIntVal (t : String) : Int :=
  match t.data with
  | '-' :: rest => -(digitsVal rest : Int)
  | cs => digitsVal cs

/-- Split a char list at the first occurrence of `e`, if any. -/
def splitAtFirst (e : Char) : List Char → List Char × Option (List Char)
  | [] => ([], none)
  | c :: rest =>
    if c = e then ([], some rest)
    else
      let (m, x) := splitAtFirst e rest
      (c :: m, x)

/-- Mantissa of Python's `float` grammar: `digits [. digits?]` or `. digits`. -/
def floatMantOk (cs : List Char) : Bool :=
  match splitAtFirst '.' cs with
  | (ip, none) => digitsU ip
  | (ip, some fp) =>
    (digitsU ip && (fp.isEmpty || digitsU fp)) || (ip.isEmpty && digitsU fp)

/-- Exponent part of Python's `float` grammar: optional sign then digits. -/
def floatExpOk (cs : List Char) : Bool :=
  match cs with
  | '+' :: r => digitsU r
  | '-' :: r => digitsU r
  | r => digitsU r

/-- Numeric (non-inf/nan) body of Python's `float` grammar. -/
def floatNumericOk (cs : List Char) : Bool :=
  match splitAtFirst 'e' cs with
  | (m, none) => floatMantOk m
  | (m, some e) => floatMantOk m && floatExpOk e

/-- Python `float(s)` success: whitespace-stripped, case-insensitive,
optional sign, then a numeric literal or `inf`/`infinity`/`nan`. -/
def pyFloatOk (s : String) : Bool :=
  let cs := (pyLower (pyStrip s)).data
  let body := match cs with
    | '+' :: r => r
    | '-' :: r => r
    | r => r
  body = "inf".data || body = "infinity".data || body = "nan".data ||
    floatNumericOk body

/-- `maybe_parse_scalar` (tool.py lines 59-82): optional lightweight type
inference for CSV values.  Strips the input; empty → `""`; then tries
`int(...)`, `float(...)`, case-insensitive `true`/`false`; otherwise
returns the original (untrimmed) string. -/
def maybe_parse_scalar (s : String) : Scalar :=
  let s2 := pyStrip s
  if s2 = "" then .str ""
  else
    match pyParseInt s2 with
    | some i => .int i
    | none =>
      if pyFloatOk s2 then .float s2
      else
        let low := pyLower s2
        if low = "true" then .bool true
        else if low = "false" then .bool false
        else .str s

/-- The decode procedure exactly as the specification words it
(claim C4): probes in order — empty after trimming; the spec's integer
grammar (optional leading `-` then digits); Python's float; boolean
words; otherwise the original untrimmed string. -/
def scalarDecodeAsSpecified (s : String) : Scalar :=
  let t := pyStrip s
  if t = "" then .str ""
  else if specIntOk t then .int (specIntVal t)
  else if pyFloatOk t then .float t
  else if pyLower t = "true" then .bool true
  else if pyLower t = "false" then .bool false
  else .str s

/-- The decode procedure with the integer probe amended to Python's
actual `int` grammar (optional `+` or `-` sign, underscores between
digits); otherwise as the specification words it. -/
def scalarDecodeAmended (s : String) : Scalar :=
  let t := pyStrip s
  if t = "" then .str ""
  else if pyIntOk t then .int (pyIntVal t)
  else if pyFloatOk t then .float t
  else if pyLower t = "true" then .bool true
  else if pyLower t = "false" then .bool false
  else .str s

/-! ## The `csv` module, default (excel) dialect

Writer: delimiter `,`, quote char `"`, `QUOTE_MINIMAL` (a field is quoted
iff it contains a comma, a quote, `\r` or `\n`; a lone empty field in a
row is quoted to keep the row distinct from a blank line), doubled
embedded quotes, `\r\n` line terminator.

Reader: the non-strict default-dialect state machine.  A quote only opens
a quoted section at the start of a field; a doubled quote inside a quoted
section is a literal quote; after the closing quote the field continues
unquoted; an unterminated quote at end of input just ends the field
(non-strict mode); a record ends at `\r`, `\n` or `\r\n`; a blank line is
the empty record `[]`. -/

/-- Does the writer quote this (already stringified) field? -/
def cellNeedsQuote (cs : List Char) : Bool :=
  cs.any fun c => c = ',' || c = '"' || c = '\r' || c = '\n'

/-- Double every quote character (writer escaping). -/
def escQuotes : List Char → List Char
  | [] => []
  | c :: rest => if c = '"' then '"' :: '"' :: escQuotes rest else c :: escQuotes rest

/-- Render one field, quoting when needed. -/
def writeCell (cs : List Char) : List Char :=
  if cellNeedsQuote cs then '"' :: (escQuotes cs ++ ['"']) else cs

/-- Comma-join the rendered fields of a row. -/
def writeRowCells : List (List Char) → List Char
  | [] => []
  | [c] => writeCell c
  | c :: rest => writeCell c ++ ',' :: writeRowCells rest

/-- Render one row, with the writer's lone-empty-field special case and
the `\r\n` terminator. -/
def writeRow (row : List (List Char)) : List Char :=
  (if row = [[]] then ['"', '"'] else writeRowCells row) ++ ['\r', '\n']

/-- Render a sequence of rows (successive `writerow` calls). -/
def writeRows (rows : List (List (List Char))) : List Char :=
  (rows.map writeRow).flatten

/-- Consume the `\n` of a `\r\n` line terminator, if present. -/
def eatLF : List Char → List Char
  | '\n' :: rest => rest
  | rest => rest

/-- What ended a field: a comma, or the end of the record. -/
inductive FTerm where
  | comma
  | recEnd
  deriving DecidableEq, Repr

/-- Parse an unquoted field (state `IN_FIELD`): content runs to the next
comma, record terminator, or end of input.  Returns the field content,
what ended it, and the remaining input (terminator consumed). -/
def parseFieldUnq : List Char → List Char × FTerm × List Char
  | [] => ([], .recEnd, [])
  | c :: rest =>
    if c = ',' then ([], .comma, rest)
    else if c = '\r' then ([], .recEnd, eatLF rest)
    else if c = '\n' then ([], .recEnd, rest)
    else
      let (f, t, r) := parseFieldUnq rest
      (c :: f, t, r)

/-- Parse the remainder of a quoted field (state `IN_QUOTED_FIELD`, after
the opening quote): a doubled quote is a literal quote; a single quote
closes the quoted section and the field continues unquoted; end of input
ends the field (non-strict). -/
def parseFieldQ : List Char → List Char × FTerm × List Char
  | [] => ([], .recEnd, [])
  | c :: rest =>
    if c = '"' then
      match rest with
      | [] => ([], .recEnd, [])
      | c2 :: r2 =>
        if c2 = '"' then
          let (f, t, r) := parseFieldQ r2
          ('"' :: f, t, r)
        else parseFieldUnq (c2 :: r2)
    else
      let (f, t, r) := parseFieldQ rest
      (c :: f, t, r)

/-- Parse one field (state `START_FIELD`): a leading quote opens a quoted
section, anything else is an unquoted field. -/
def parseField : List Char → List Char × FTerm × List Char
  | [] => parseFieldUnq []
  | c :: rest => if c = '"' then parseFieldQ rest else parseFieldUnq (c :: rest)

/-- Parse the fields of one record (fuelled; fuel bounds the number of
fields, which never exceeds the input length plus one). -/
def parseRecord : Nat → List Char → Option (List (List Char) × List Char)
  | 0, _ => none
  | fuel + 1, cs =>
    match parseField cs with
    | (f, .recEnd, rest) => some ([f], rest)
    | (f, .comma, rest) =>
      match parseRecord fuel rest with
      | some (flds, r) => some (f :: flds, r)
      | none => none

/-- Parse a sequence of records (fuelled; fuel bounds the number of
records).  A line terminator at record start yields the blank record. -/
def parseRows : Nat → List Char → Option (List (List (List Char)))
  | 0, _ => none
  | _ + 1, [] => some []
  | fuel + 1, c :: cs =>
    if c = '\r' then (parseRows fuel (eatLF cs)).map ([] :: ·)
    else if c = '\n' then (parseRows fuel cs).map ([] :: ·)
    else
      match parseRecord (cs.length + 2) (c :: cs) with
      | some (flds, rest) => (parseRows fuel rest).map (flds :: ·)
      | none => none

/-- `csv.reader` over a whole text with the default dialect.  The fuel
bounds are sufficient (`parseRows_isSome` below), so the `getD` default
is never taken. -/
def csvParse (s : String) : List (List String) :=
  ((parseRows (s.data.length + 1) s.data).getD []).map (·.map (⟨·⟩))

/-! ## Data model

A `Record` is a Python dict from field name to scalar, modelled as an
insertion-ordered association list (unique keys are an invariant of
Python dicts; theorems that need it take it as a `Nodup` hypothesis).
A `RecordSet` maps each id key to a JSON value that is either a record
or some non-mapping value (`JVal.nonRec`), which the tool rejects. -/

abbrev Record : Type := List (String × Scalar)

/-- A JSON value sitting under a top-level key: a record (flat mapping),
or anything that is not a mapping (list, scalar, ...), which every code
path rejects with a schema error before looking inside it. -/
inductive JVal where
  | record (r : Record)
  | nonRec
  deriving DecidableEq

abbrev RecordSet : Type := List (String × JVal)

/-- Python `d[k] = v` on an insertion-ordered dict: replace in place if
the key exists, else append. -/
def dictUpdate {α : Type} : List (String × α) → String → α → List (String × α)
  | [], k, v => [(k, v)]
  | (k', v') :: t, k, v =>
    if k' = k then (k, v) :: t else (k', v') :: dictUpdate t k v

/-! ## `infer_fields_from_json` (tool.py lines 9-22) -/

/-- Lexicographic codepoint order on char lists (Python string `<=`). -/
def charListLe : List Char → List Char → Bool
  | [], _ => true
  | _ :: _, [] => false
  | a :: as, b :: bs => if a = b then charListLe as bs else decide (a < b)

/-- Python string comparison `a <= b` (lexicographic by codepoint), as
used by `sorted(...)`. -/
def pyLe (a b : String) : Prop := charListLe a.data b.data = true

instance : DecidableRel pyLe := fun a b =>
  inferInstanceAs (Decidable (charListLe a.data b.data = true))

/-- Python `sorted(...)` of a set of strings: the distinct elements in
ascending codepoint order. -/
def pySortedSet (l : List String) : List String :=
  List.insertionSort pyLe l.dedup

/-- `infer_fields_from_json`: union of all field names over every record
(`ValueError` if an entry's value is not a dict), discard `id`, sort
alphabetically, prepend `id`. -/
def infer_fields_from_json (data : RecordSet) : Except Err (List String) := do
  let keys ← data.foldlM
    (fun acc kv =>
      match kv.2 with
      | .nonRec => .error .schemaError
      | .record r => .ok (acc ++ r.map Prod.fst))
    ([] : List String)
  .ok ("id" :: pySortedSet (keys.filter (· ≠ "id")))

/-! ## `infer_fields_from_csv` (tool.py lines 25-32) -/

/-- `infer_fields_from_csv`: requires headers (`None` and `[]` are both
falsy) containing `id`; keeps header order with `id` moved to the front. -/
def infer_fields_from_csv (fieldnames : Option (List String)) : Except Err (List String) :=
  match fieldnames with
  | none => .error .schemaError
  | some [] => .error .schemaError
  | some hs =>
    if "id" ∈ hs then .ok ("id" :: hs.filter (· ≠ "id"))
    else .error .schemaError

/-! ## `json_to_csv_text` (tool.py lines 35-55) -/

/-- How `csv.writer` stringifies a scalar cell: strings unchanged,
`str(int)`, the float's repr token, `str(True)`/`str(False)`, and `None`
written as the empty string (a `csv` module rule). -/
def strOfScalar : Scalar → String
  | .str s => s
  | .int n => toString n
  | .float tok => tok
  | .bool true => "True"
  | .bool false => "False"
  | .null => ""

/-- One data row of the encoder: the entry key under `id`, otherwise the
record's value for the field, or `record.get(field, "")` = `""` when absent. -/
def encodeRow (fields : List String) (key : String) (r : Record) : List String :=
  fields.map fun f =>
    if f = "id" then key else strOfScalar ((r.lookup f).getD (.str ""))

/-- `json_to_csv_text`: header row, then one row per entry in insertion
order; `ValueError` if an entry's value is not a dict. -/
def json_to_csv_text (data : RecordSet) (fields : List String) : Except Err String := do
  let rows ← data.mapM fun kv =>
    match kv.2 with
    | .nonRec => Except.error Err.schemaError
    | .record r => Except.ok (encodeRow fields kv.1 r)
  .ok ⟨writeRows ((fields :: rows).map (·.map String.data))⟩

/-! ## `csv_text_to_json` (tool.py lines 85-116) -/

/-- Index of the last occurrence of `f` in `l` (the occurrence that wins
when `csv.DictReader` builds a row dict from duplicate header names). -/
def lastOcc : List String → String → Option Nat
  | [], _ => none
  | h :: t, f =>
    match lastOcc t f with
    | some i => some (i + 1)
    | none => if h = f then some 0 else none

/-- The `csv.DictReader` row dictionary, as a lookup: `none` when `f` is
not a header at all (so `row.get(f, default)` falls to the default);
`some none` when the row is too short for the winning occurrence of `f`
(the dict holds `restval = None`); `some (some cell)` otherwise. -/
def rowGet (header row : List String) (f : String) : Option (Option String) :=
  (lastOcc header f).map fun p => row.get? p

/-- `(row.get("id") or "")`: the id cell, with both a missing key and a
`None` value collapsing to the empty string. -/
def rowIdCell (header row : List String) : String :=
  match rowGet header row "id" with
  | some (some s) => s
  | _ => ""

/-- One step of the inner `for field in fields` loop of the decoder:
skip `id`; `val = row.get(field, "")` may be a string or `None` (the
`DictReader` `restval` for a short row); with inference on,
`maybe_parse_scalar` applied to `None` raises `AttributeError` (`None`
has no `.strip`), otherwise the raw value (possibly `None`) is stored. -/
def decodeField (header : List String) (infer_types : Bool) (row : List String)
    (record : Record) (f : String) : Except Err Record :=
  if f = "id" then .ok record
  else
    match rowGet header row f with
    | some (some s) =>
      .ok (dictUpdate record f (if infer_types then maybe_parse_scalar s else .str s))
    | some none =>
      if infer_types then .error .attributeError
      else .ok (dictUpdate record f .null)
    | none =>
      .ok (dictUpdate record f (if infer_types then maybe_parse_scalar "" else .str ""))

/-- The record built from one data row (the inner `for field in fields`
loop of `csv_text_to_json`). -/
def decodeRowRecord (fields header : List String) (infer_types : Bool)
    (row : List String) : Except Err Record :=
  fields.foldlM (decodeField header infer_types row) []

/-- The trimmed id key of a data row. -/
def ridOf (header row : List String) : String :=
  pyStrip (rowIdCell header row)

/-- One iteration of the `for row in reader` loop: `ValidationError` on a
blank trimmed id, else build the record and store it under the key. -/
def decodeRow (fields header : List String) (infer_types : Bool)
    (data : List (String × Record)) (row : List String) :
    Except Err (List (String × Record)) :=
  if ridOf header row = "" then .error .validationError
  else
    (decodeRowRecord fields header infer_types row).map fun record =>
      dictUpdate data (ridOf header row) record

/-- The whole `for row in reader` loop over the data rows. -/
def decodeRows (fields header : List String) (infer_types : Bool)
    (data : List (String × Record)) (rows : List (List String)) :
    Except Err (List (String × Record)) :=
  rows.foldlM (decodeRow fields header infer_types) data

/-- `csv_text_to_json`: parse the CSV; `DictReader.fieldnames` is the
first row (or `None` for empty input); re-derive the field list from the
header (the `fields` argument is advisory and replaced); check every
derived field actually appears in the header; then decode the data rows,
skipping blank rows as `DictReader` does. -/
def csv_text_to_json (text : String) (fields : List String) (infer_types : Bool) :
    Except Err (List (String × Record)) :=
  let rows := csvParse text
  match infer_fields_from_csv rows.head? with
  | .error e => .error e
  | .ok file_fields =>
    let header := rows.headD []
    if file_fields.any (fun h => !header.contains h) then .error .schemaError
    else
      let _ := fields  -- reassigned in the source: `fields = file_fields`
      decodeRows file_fields header infer_types [] (rows.tail.filter (· ≠ []))

/-! ## `cmd_verify` (tool.py lines 257-291): the round-trip comparison -/

/-- Python `==` on scalars.  Cross-type numeric equality between a float
token and an `int`/`bool` is modelled as `false`; no theorem below
compares a float to another number (see the file header). -/
def pyEqScalar : Scalar → Scalar → Bool
  | .str a, .str b => a = b
  | .int a, .int b => a = b
  | .float a, .float b => a = b
  | .bool a, .bool b => a = b
  | .null, .null => true
  | .int a, .bool b => a = (if b then 1 else 0)
  | .bool a, .int b => (if a then 1 else 0) = b
  | _, _ => false

/-- Python `==` on two dicts (as association lists): equal key sets, and
equal values at every key. -/
def pyEqAssoc {α β : Type} (eqv : α → β → Bool) (r1 : List (String × α))
    (r2 : List (String × β)) : Bool :=
  let k1 := (r1.map Prod.fst).dedup
  let k2 := (r2.map Prod.fst).dedup
  k1.all (k2.contains ·) && k2.all (k1.contains ·) &&
    k1.all fun k =>
      match r1.lookup k, r2.lookup k with
      | some a, some b => eqv a b
      | _, _ => false

/-- Python `==` between an original JSON value and a decoded record
(a non-mapping never equals a dict). -/
def pyEqJVal : JVal → Record → Bool
  | .nonRec, _ => false
  | .record r, r' => pyEqAssoc pyEqScalar r r'

/-- Python `original == roundtrip` in `cmd_verify`. -/
def pyEqRecordSet (original : RecordSet) (roundtrip : List (String × Record)) : Bool :=
  pyEqAssoc pyEqJVal original roundtrip

/-- The in-memory round-trip of `cmd_verify`: infer fields, encode,
decode with the given `infer_types`, compare.  `.ok true` is
`VERIFY: PASS`, `.ok false` is `VERIFY: FAIL`, `.error _` is the
`ERROR: verify failed during conversion` path. -/
def verify_roundtrip (original : RecordSet) (infer_types : Bool) : Except Err Bool := do
  let fields ← infer_fields_from_json original
  let csv_text ← json_to_csv_text original fields
  let roundtrip ← csv_text_to_json csv_text fields infer_types
  .ok (pyEqRecordSet original roundtrip)

/-- Projection used to state encoder lemmas (the encoder only reaches it
on `record` values). -/
def projRec : JVal → Record
  | .record r => r
  | .nonRec => []

/-- Which scalars the round-trip claims call "numeric". -/
def isNumeric : Scalar → Bool
  | .int _ => true
  | .float _ => true
  | _ => false

/-! ## Order facts about `pyLe`, and the behaviour of `pySortedSet` -/

theorem charListLe_total : ∀ as bs : List Char,
    charListLe as bs = true ∨ charListLe bs as = true := by
  intro as
  induction as with
  | nil => intro bs; left; rfl
  | cons a as ih =>
    intro bs
    cases bs with
    | nil => right; rfl
    | cons b bs' =>
      by_cases hab : a = b
      · subst hab
        rcases ih bs' with h | h
        · left; simpa [charListLe] using h
        · right; simpa [charListLe] using h
      · rcases lt_trichotomy a b with h | h | h
        · left; simp [charListLe, hab, h]
        · exact absurd h hab
        · right
          simp only [charListLe, if_neg (fun hh : b = a => hab hh.symm)]
          exact decide_eq_true h

theorem charListLe_trans : ∀ as bs cs : List Char,
    charListLe as bs = true → charListLe bs cs = true → charListLe as cs = true := by
  intro as
  induction as with
  | nil => intro bs cs _ _; rfl
  | cons a as ih =>
    intro bs cs h1 h2
    cases bs with
    | nil => simp [charListLe] at h1
    | cons b bs' =>
      cases cs with
      | nil => simp [charListLe] at h2
      | cons c cs' =>
        simp only [charListLe] at h1 h2 ⊢
        by_cases hab : a = b <;> by_cases hbc : b = c
        · subst hab; subst hbc
          simp only [if_pos rfl] at h1 h2 ⊢
          exact ih bs' cs' h1 h2
        · subst hab
          simp only [if_pos rfl] at h1
          simp only [if_neg hbc] at h2 ⊢
          exact h2
        · subst hbc
          simp only [if_pos rfl] at h2
          simp only [if_neg hab] at h1 ⊢
          exact h1
        · simp only [if_neg hab] at h1
          simp only [if_neg hbc] at h2
          have hac : a < c := lt_trans (of_decide_eq_true h1) (of_decide_eq_true h2)
          simp [ne_of_lt hac, hac]

theorem charListLe_antisymm : ∀ as bs : List Char,
    charListLe as bs = true → charListLe bs as = true → as = bs := by
  intro as
  induction as with
  | nil =>
    intro bs _ h2
    cases bs with
    | nil => rfl
    | cons b bs' => simp [charListLe] at h2
  | cons a as ih =>
    intro bs h1 h2
    cases bs with
    | nil => simp [charListLe] at h1
    | cons b bs' =>
      simp only [charListLe] at h1 h2
      by_cases hab : a = b
      · subst hab
        simp only [if_pos rfl] at h1 h2
        exact congrArg _ (ih bs' h1 h2)
      · simp only [if_neg hab, if_neg (fun hh : b = a => hab hh.symm)] at h1 h2
        exact absurd (of_decide_eq_true h2) (lt_asymm (of_decide_eq_true h1))

instance : IsTotal String pyLe := ⟨fun a b => charListLe_total a.data b.data⟩

instance : IsTrans String pyLe :=
  ⟨fun a b c h1 h2 => charListLe_trans a.data b.data c.data h1 h2⟩

instance : IsAntisymm String pyLe := by
  refine ⟨fun a b h1 h2 => ?_⟩
  cases a; cases b
  exact congrArg String.mk (charListLe_antisymm _ _ h1 h2)

theorem pySortedSet_sorted (l : List String) : List.Sorted pyLe (pySortedSet l) :=
  List.sorted_insertionSort pyLe l.dedup

theorem pySortedSet_perm (l : List String) : (pySortedSet l).Perm l.dedup :=
  List.perm_insertionSort pyLe l.dedup

theorem pySortedSet_nodup (l : List String) : (pySortedSet l).Nodup :=
  ((pySortedSet_perm l).nodup_iff).2 (List.nodup_dedup l)

theorem pySortedSet_mem (l : List String) (x : String) :
    x ∈ pySortedSet l ↔ x ∈ l := by
  rw [(pySortedSet_perm l).mem_iff, List.mem_dedup]

/-- The sorted set is invariant under permutations of the input list. -/
theorem pySortedSet_eq_of_perm {l1 l2 : List String} (p : l1.Perm l2) :
    pySortedSet l1 = pySortedSet l2 :=
  List.eq_of_perm_of_sorted
    ((pySortedSet_perm l1).trans ((p.dedup).trans (pySortedSet_perm l2).symm))
    (pySortedSet_sorted l1) (pySortedSet_sorted l2)

/-! ## The reader inverts the writer

`csvParse` applied to `writeRows rows` recovers `rows`, for rows with at
least one field each (every row the tool writes starts with the `id`
column, so this covers all encoder output). -/

theorem cellNeedsQuote_cons {c : Char} {cs : List Char}
    (h : cellNeedsQuote (c :: cs) = false) :
    c ≠ ',' ∧ c ≠ '"' ∧ c ≠ '\r' ∧ c ≠ '\n' ∧ cellNeedsQuote cs = false := by
  simp only [cellNeedsQuote, List.any_cons, Bool.or_eq_false_iff,
    decide_eq_false_iff_not] at h
  obtain ⟨⟨⟨⟨h1, h2⟩, h3⟩, h4⟩, h5⟩ := h
  exact ⟨h1, h2, h3, h4, by simpa [cellNeedsQuote] using h5⟩

theorem parseFieldUnq_comma (s : List Char) (r : List Char)
    (h : cellNeedsQuote s = false) :
    parseFieldUnq (s ++ ',' :: r) = (s, .comma, r) := by
  induction s with
  | nil => simp [parseFieldUnq]
  | cons c s' ih =>
    obtain ⟨h1, _, h3, h4, h5⟩ := cellNeedsQuote_cons h
    simp [parseFieldUnq, h1, h3, h4, ih h5]

theorem parseFieldUnq_crlf (s : List Char) (r : List Char)
    (h : cellNeedsQuote s = false) :
    parseFieldUnq (s ++ '\r' :: '\n' :: r) = (s, .recEnd, r) := by
  induction s with
  | nil => simp [parseFieldUnq, eatLF]
  | cons c s' ih =>
    obtain ⟨h1, _, h3, h4, h5⟩ := cellNeedsQuote_cons h
    simp [parseFieldUnq, h1, h3, h4, ih h5]

theorem parseFieldQ_esc_comma (s : List Char) (r : List Char) :
    parseFieldQ (escQuotes s ++ '"' :: ',' :: r) = (s, .comma, r) := by
  induction s with
  | nil => simp [escQuotes, parseFieldQ, parseFieldUnq]
  | cons c s' ih =>
    by_cases hc : c = '"'
    · subst hc; simp [escQuotes, parseFieldQ, ih]
    · rw [show escQuotes (c :: s') = c :: escQuotes s' by simp [escQuotes, hc],
        List.cons_append, parseFieldQ.eq_def]
      simp only [if_neg hc, ih]

theorem parseFieldQ_esc_crlf (s : List Char) (r : List Char) :
    parseFieldQ (escQuotes s ++ '"' :: '\r' :: '\n' :: r) = (s, .recEnd, r) := by
  induction s with
  | nil => simp [escQuotes, parseFieldQ, parseFieldUnq, eatLF]
  | cons c s' ih =>
    by_cases hc : c = '"'
    · subst hc; simp [escQuotes, parseFieldQ, ih]
    · rw [show escQuotes (c :: s') = c :: escQuotes s' by simp [escQuotes, hc],
        List.cons_append, parseFieldQ.eq_def]
      simp only [if_neg hc, ih]

theorem parseField_writeCell_comma (s : List Char) (r : List Char) :
    parseField (writeCell s ++ ',' :: r) = (s, .comma, r) := by
  by_cases hq : cellNeedsQuote s
  · have hx : writeCell s ++ ',' :: r = '"' :: (escQuotes s ++ '"' :: ',' :: r) := by
      simp [writeCell, hq]
    rw [hx]
    simp [parseField, parseFieldQ_esc_comma]
  · have hqf : cellNeedsQuote s = false := by simpa using hq
    have hwc : writeCell s = s := by simp [writeCell, hqf]
    rw [hwc]
    cases s with
    | nil => simp [parseField, parseFieldUnq]
    | cons c s' =>
      obtain ⟨_, h2, _, _, _⟩ := cellNeedsQuote_cons hqf
      rw [List.cons_append, parseField, if_neg h2]
      exact parseFieldUnq_comma (c :: s') r hqf

theorem parseField_writeCell_crlf (s : List Char) (r : List Char) :
    parseField (writeCell s ++ '\r' :: '\n' :: r) = (s, .recEnd, r) := by
  by_cases hq : cellNeedsQuote s
  · have hx : writeCell s ++ '\r' :: '\n' :: r
        = '"' :: (escQuotes s ++ '"' :: '\r' :: '\n' :: r) := by
      simp [writeCell, hq]
    rw [hx]
    simp [parseField, parseFieldQ_esc_crlf]
  · have hqf : cellNeedsQuote s = false := by simpa using hq
    have hwc : writeCell s = s := by simp [writeCell, hqf]
    rw [hwc]
    cases s with
    | nil => simp [parseField, parseFieldUnq, eatLF]
    | cons c s' =>
      obtain ⟨_, h2, _, _, _⟩ := cellNeedsQuote_cons hqf
      rw [List.cons_append, parseField, if_neg h2]
      exact parseFieldUnq_crlf (c :: s') r hqf

theorem parseRecord_writeRowCells : ∀ (row : List (List Char)) (r : List Char)
    (fuel : Nat), row ≠ [] → row.length ≤ fuel →
    parseRecord fuel (writeRowCells row ++ '\r' :: '\n' :: r) = some (row, r) := by
  intro row
  induction row with
  | nil => intro r fuel h _; exact absurd rfl h
  | cons c row' ih =>
    intro r fuel _ hfuel
    cases fuel with
    | zero => simp at hfuel
    | succ fuel' =>
      cases row' with
      | nil =>
        show parseRecord (fuel' + 1) (writeCell c ++ '\r' :: '\n' :: r) = _
        simp [parseRecord, parseField_writeCell_crlf]
      | cons c2 row'' =>
        have hsplit : writeRowCells (c :: c2 :: row'') ++ '\r' :: '\n' :: r
            = writeCell c ++ ',' :: (writeRowCells (c2 :: row'') ++ '\r' :: '\n' :: r) := by
          simp [writeRowCells]
        rw [hsplit]
        have hlen : (c2 :: row'').length ≤ fuel' := by
          simpa using Nat.lt_succ_iff.mp (Nat.lt_of_lt_of_le (by simp) hfuel)
        simp [parseRecord, parseField_writeCell_comma,
          ih r fuel' (by simp) hlen]

theorem parseRecord_loneEmpty (r : List Char) (fuel : Nat) :
    parseRecord (fuel + 1) ('"' :: '"' :: '\r' :: '\n' :: r) = some ([[]], r) := by
  simp [parseRecord, parseField, parseFieldQ, parseFieldUnq, eatLF]

theorem writeRowCells_length : ∀ row : List (List Char),
    row.length ≤ (writeRowCells row).length + 1 := by
  intro row
  induction row with
  | nil => simp
  | cons c row' ih =>
    cases row' with
    | nil => simp [writeRowCells]
    | cons c2 row'' =>
      simp only [writeRowCells, List.length_cons, List.length_append] at ih ⊢
      omega

theorem writeRow_length (row : List (List Char)) :
    2 ≤ (writeRow row).length := by
  simp [writeRow]

/-- A written non-degenerate row starts with a character that is not a
line terminator (so the reader enters its record branch). -/
theorem writeRowCells_head (row : List (List Char)) (h1 : row ≠ []) (h2 : row ≠ [[]]) :
    ∃ c cs, writeRowCells row = c :: cs ∧ c ≠ '\r' ∧ c ≠ '\n' := by
  cases row with
  | nil => exact absurd rfl h1
  | cons cell row' =>
    cases cell with
    | nil =>
      cases row' with
      | nil => exact absurd rfl h2
      | cons c2 rs =>
        refine ⟨',', writeRowCells (c2 :: rs), ?_, by decide, by decide⟩
        have hwc : writeCell [] = [] := by decide
        simp [writeRowCells, hwc]
    | cons ch cell' =>
      by_cases hq : cellNeedsQuote (ch :: cell')
      · have hwc : writeCell (ch :: cell') = '"' :: (escQuotes (ch :: cell') ++ ['"']) := by
          simp [writeCell, hq]
        cases row' with
        | nil =>
          exact ⟨'"', escQuotes (ch :: cell') ++ ['"'],
            by simp [writeRowCells, hwc], by decide, by decide⟩
        | cons c2 rs =>
          refine ⟨'"', (escQuotes (ch :: cell') ++ ['"']) ++ ',' :: writeRowCells (c2 :: rs),
            ?_, by decide, by decide⟩
          simp [writeRowCells, hwc]
      · have hqf : cellNeedsQuote (ch :: cell') = false := by simpa using hq
        obtain ⟨_, _, h3, h4, _⟩ := cellNeedsQuote_cons hqf
        have hwc : writeCell (ch :: cell') = ch :: cell' := by
          simp [writeCell, hqf]
        cases row' with
        | nil => exact ⟨ch, cell', by simp [writeRowCells, hwc], h3, h4⟩
        | cons c2 rs =>
          refine ⟨ch, cell' ++ ',' :: writeRowCells (c2 :: rs), ?_, h3, h4⟩
          simp [writeRowCells, hwc]

theorem parseRows_writeRows : ∀ (rows : List (List (List Char))) (fuel : Nat),
    (∀ row ∈ rows, row ≠ []) → rows.length < fuel →
    parseRows fuel (writeRows rows) = some rows := by
  intro rows
  induction rows with
  | nil =>
    intro fuel _ hfuel
    cases fuel with
    | zero => simp at hfuel
    | succ fuel' => simp [writeRows, parseRows]
  | cons row rows' ih =>
    intro fuel hne hfuel
    cases fuel with
    | zero => simp at hfuel
    | succ fuel' =>
      have hrowne : row ≠ [] := hne row (by simp)
      have hrest : ∀ r ∈ rows', r ≠ [] := fun r hr => hne r (by simp [hr])
      have hfuel' : rows'.length < fuel' := by
        simpa using Nat.lt_succ_iff.mp hfuel
      by_cases hlone : row = [[]]
      · subst hlone
        have hx : writeRows ([[]] :: rows')
            = '"' :: '"' :: '\r' :: '\n' :: writeRows rows' := by
          simp [writeRows, writeRow]
        rw [hx]
        have hrec := parseRecord_loneEmpty (writeRows rows')
          (('"' :: '\r' :: '\n' :: writeRows rows').length + 1)
        simp only [parseRows, if_neg (by decide : ¬('"' : Char) = '\r'),
          if_neg (by decide : ¬('"' : Char) = '\n')]
        rw [show ('"' :: '\r' :: '\n' :: writeRows rows').length + 2
              = (('"' :: '\r' :: '\n' :: writeRows rows').length + 1) + 1 from rfl]
        rw [hrec]
        simp [ih fuel' hrest hfuel']
      · obtain ⟨c, cs, hhead, hc1, hc2⟩ := writeRowCells_head row hrowne hlone
        have hx : writeRows (row :: rows')
            = writeRowCells row ++ '\r' :: '\n' :: writeRows rows' := by
          simp [writeRows, writeRow, hlone]
        have hx2 : writeRows (row :: rows')
            = c :: (cs ++ '\r' :: '\n' :: writeRows rows') := by
          rw [hx, hhead]; rfl
        rw [hx2]
        simp only [parseRows, if_neg hc1, if_neg hc2]
        have hfcount : row.length ≤ (cs ++ '\r' :: '\n' :: writeRows rows').length + 2 := by
          have h1 := writeRowCells_length row
          have h2 : (writeRowCells row).length = cs.length + 1 := by
            rw [hhead]; rfl
          simp only [List.length_append, List.length_cons] at *
          omega
        have hrec : parseRecord ((cs ++ '\r' :: '\n' :: writeRows rows').length + 2)
            (c :: (cs ++ '\r' :: '\n' :: writeRows rows'))
            = some (row, writeRows rows') := by
          have hthis := parseRecord_writeRowCells row (writeRows rows')
            ((cs ++ '\r' :: '\n' :: writeRows rows').length + 2) hrowne hfcount
          rw [hhead] at hthis
          simpa using hthis
        rw [hrec]
        simp [ih fuel' hrest hfuel']

theorem writeRows_length : ∀ rows : List (List (List Char)),
    rows.length ≤ (writeRows rows).length := by
  intro rows
  induction rows with
  | nil => simp [writeRows]
  | cons row rows' ih =>
    have h2 := writeRow_length row
    simp only [writeRows, List.map_cons, List.flatten_cons, List.length_append,
      List.length_cons] at ih ⊢
    omega

/-- The reader inverts the writer (string level, as the tool uses it). -/
theorem csvParse_writeRows (rows : List (List String))
    (h : ∀ row ∈ rows, row ≠ []) :
    csvParse ⟨writeRows (rows.map (·.map String.data))⟩ = rows := by
  have hne : ∀ row ∈ rows.map (·.map String.data), row ≠ [] := by
    intro row hrow
    obtain ⟨row0, hrow0, rfl⟩ := List.mem_map.mp hrow
    simpa using h row0 hrow0
  have hlen : (rows.map (·.map String.data)).length
      < (writeRows (rows.map (·.map String.data))).length + 1 :=
    Nat.lt_succ_of_le (writeRows_length _)
  unfold csvParse
  rw [show (String.mk (writeRows (rows.map (·.map String.data)))).data
        = writeRows (rows.map (·.map String.data)) from rfl]
  rw [parseRows_writeRows _ _ hne hlen]
  simp only [Option.getD_some, List.map_map]
  have hfun : ((fun x : List (List Char) => List.map (fun cs => (⟨cs⟩ : String)) x)
      ∘ fun x : List String => List.map String.data x) = id := by
    funext row
    rw [Function.comp_apply, List.map_map]
    exact List.map_id row
  rw [hfun]
  exact List.map_id rows

/-! ## Facts about the row dictionaries and dict updates -/

theorem lastOcc_lt_length : ∀ (l : List String) (f : String) (p : Nat),
    lastOcc l f = some p → p < l.length := by
  intro l
  induction l with
  | nil => intro f p h; simp [lastOcc] at h
  | cons h t ih =>
    intro f p hp
    simp only [lastOcc] at hp
    cases ht : lastOcc t f with
    | some i =>
      rw [ht] at hp
      cases hp
      exact Nat.succ_lt_succ (ih f i ht)
    | none =>
      rw [ht] at hp
      by_cases hh : h = f
      · rw [if_pos hh] at hp; cases hp; simp
      · rw [if_neg hh] at hp; cases hp

theorem lastOcc_isSome_of_mem : ∀ (l : List String) (f : String), f ∈ l →
    ∃ p, lastOcc l f = some p := by
  intro l
  induction l with
  | nil => intro f h; simp at h
  | cons h t ih =>
    intro f hf
    simp only [lastOcc]
    cases ht : lastOcc t f with
    | some i => exact ⟨i + 1, rfl⟩
    | none =>
      have : f = h := by
        rcases List.mem_cons.mp hf with h1 | h2
        · exact h1
        · obtain ⟨p, hp⟩ := ih f h2; rw [hp] at ht; cases ht
      exact ⟨0, by rw [if_pos this.symm]⟩

/-- In a full-length row, every header field has a present (non-`None`)
cell. -/
theorem rowGet_full (header row : List String) (f : String)
    (hlen : header.length = row.length) (hf : f ∈ header) :
    ∃ s, rowGet header row f = some (some s) := by
  obtain ⟨p, hp⟩ := lastOcc_isSome_of_mem header f hf
  have hlt : p < row.length := hlen ▸ lastOcc_lt_length header f p hp
  exact ⟨row.get ⟨p, hlt⟩, by simp [rowGet, hp, List.get?_eq_get hlt]⟩

theorem lookup_cons_self {α : Type} (k : String) (v0 : α) (t : List (String × α)) :
    List.lookup k ((k, v0) :: t) = some v0 := by
  rw [List.lookup]
  simp

theorem lookup_cons_ne {α : Type} (k0 k : String) (v0 : α) (t : List (String × α))
    (h : k ≠ k0) : List.lookup k ((k0, v0) :: t) = List.lookup k t := by
  rw [List.lookup, beq_false_of_ne h]

theorem lookup_dictUpdate_self {α : Type} (d : List (String × α)) (k : String) (v : α) :
    (dictUpdate d k v).lookup k = some v := by
  induction d with
  | nil => simp [dictUpdate, List.lookup]
  | cons q t ih =>
    cases q with
    | mk k0 v0 =>
      by_cases hq : k0 = k
      · simp [dictUpdate, hq, List.lookup]
      · simp only [dictUpdate, if_neg hq]
        rw [List.lookup, beq_false_of_ne (fun h : k = k0 => hq h.symm)]
        exact ih

theorem lookup_dictUpdate_ne {α : Type} (d : List (String × α)) (k k' : String) (v : α)
    (hne : k' ≠ k) : (dictUpdate d k v).lookup k' = d.lookup k' := by
  induction d with
  | nil => simp [dictUpdate, List.lookup, beq_false_of_ne hne]
  | cons q t ih =>
    cases q with
    | mk k0 v0 =>
      by_cases hp : k0 = k
      · subst hp
        rw [show dictUpdate ((k0, v0) :: t) k0 v = (k0, v) :: t from by
          simp [dictUpdate]]
        rw [lookup_cons_ne _ _ _ _ hne, lookup_cons_ne _ _ _ _ hne]
      · simp only [dictUpdate, if_neg hp]
        by_cases hk' : k' = k0
        · subst hk'
          rw [lookup_cons_self, lookup_cons_self]
        · rw [lookup_cons_ne _ _ _ _ hk', lookup_cons_ne _ _ _ _ hk']
          exact ih

theorem mem_dictUpdate {α : Type} {d : List (String × α)} {k : String} {v : α}
    {p : String × α} (hp : p ∈ dictUpdate d k v) : p ∈ d ∨ p = (k, v) := by
  induction d with
  | nil => simp [dictUpdate] at hp; right; exact hp
  | cons q t ih =>
    cases q with
    | mk k0 v0 =>
      by_cases hq : k0 = k
      · simp only [dictUpdate, if_pos hq] at hp
        rcases List.mem_cons.mp hp with h1 | h2
        · right; exact h1
        · left; exact List.mem_cons_of_mem _ h2
      · simp only [dictUpdate, if_neg hq] at hp
        rcases List.mem_cons.mp hp with h1 | h2
        · left; exact h1 ▸ List.mem_cons_self _ _
        · rcases ih h2 with h3 | h3
          · left; exact List.mem_cons_of_mem _ h3
          · right; exact h3

theorem lookup_isSome_of_mem_keys {α : Type} {d : List (String × α)} {k' : String}
    {v' : α} (hmem : (k', v') ∈ d) : (d.lookup k').isSome := by
  induction d with
  | nil => simp at hmem
  | cons q t ih =>
    cases q with
    | mk k0 v0 =>
      rw [List.lookup]
      by_cases hk : k' = k0
      · subst hk; simp
      · rw [beq_false_of_ne hk]
        rcases List.mem_cons.mp hmem with h1 | h2
        · exact absurd (congrArg Prod.fst h1) hk
        · exact ih h2

theorem keys_dictUpdate {α : Type} (d : List (String × α)) (k : String) (v : α) :
    ((dictUpdate d k v).map Prod.fst).Perm
      (if (d.lookup k).isSome then d.map Prod.fst else (d.map Prod.fst) ++ [k]) := by
  induction d with
  | nil => simp [dictUpdate, List.lookup]
  | cons q t ih =>
    cases q with
    | mk k0 v0 =>
      by_cases hq : k0 = k
      · subst hq
        simp [dictUpdate, List.lookup]
      · simp only [dictUpdate, if_neg hq, List.map_cons]
        rw [List.lookup, beq_false_of_ne (fun h : k = k0 => hq h.symm)]
        by_cases hs : (t.lookup k).isSome
        · simp only [hs, if_true] at ih ⊢
          simpa using ih.cons k0
        · simp only [hs, if_false, Bool.false_eq_true] at ih ⊢
          simpa using ih.cons k0

theorem nodup_keys_dictUpdate {α : Type} {d : List (String × α)} {k : String} {v : α}
    (h : (d.map Prod.fst).Nodup) : ((dictUpdate d k v).map Prod.fst).Nodup := by
  have hperm := keys_dictUpdate d k v
  by_cases hs : (d.lookup k).isSome
  · rw [if_pos hs] at hperm
    exact hperm.nodup_iff.mpr h
  · rw [if_neg hs] at hperm
    refine hperm.nodup_iff.mpr ?_
    rw [List.nodup_append]
    refine ⟨h, List.nodup_singleton k, ?_⟩
    intro a ha hk
    rcases List.mem_singleton.mp hk with rfl
    obtain ⟨⟨k', v'⟩, hmem, rfl⟩ := List.mem_map.mp ha
    exact hs (lookup_isSome_of_mem_keys hmem)

theorem lookup_some_of_mem_nodup {α : Type} {d : List (String × α)} {k : String} {v : α}
    (hnd : (d.map Prod.fst).Nodup) (hmem : (k, v) ∈ d) : d.lookup k = some v := by
  induction d with
  | nil => simp at hmem
  | cons q t ih =>
    cases q with
    | mk k0 v0 =>
      have hnd2 : (k0 :: t.map Prod.fst).Nodup := by simpa using hnd
      have hnd' := List.nodup_cons.mp hnd2
      rcases List.mem_cons.mp hmem with h1 | h2
      · cases h1
        rw [List.lookup]
        simp
      · have hk : k ≠ k0 := by
          rintro rfl
          exact hnd'.1 (List.mem_map.mpr ⟨(k, v), h2, rfl⟩)
        rw [List.lookup, beq_false_of_ne hk]
        exact ih hnd'.2 h2

theorem mem_keys_of_lookup_some {α : Type} {d : List (String × α)} {k : String} {v : α}
    (h : d.lookup k = some v) : k ∈ d.map Prod.fst := by
  induction d with
  | nil => simp [List.lookup] at h
  | cons q t ih =>
    cases q with
    | mk k0 v0 =>
      rw [List.lookup] at h
      by_cases hk : k = k0
      · subst hk; simp
      · rw [beq_false_of_ne hk] at h
        exact List.mem_cons_of_mem _ (ih h)

theorem lookup_none_of_no_key {α : Type} {d : List (String × α)} {k : String}
    (h : ∀ p ∈ d, p.1 ≠ k) : d.lookup k = none := by
  induction d with
  | nil => rfl
  | cons q t ih =>
    cases q with
    | mk k0 v0 =>
      rw [List.lookup,
        beq_false_of_ne (fun hk : k = k0 => h (k0, v0) (by simp) (by simp [hk]))]
      exact ih fun p hp => h p (List.mem_cons_of_mem _ hp)

theorem count_keys_eq_one {α : Type} {d : List (String × α)} {k : String} {v : α}
    (hnd : (d.map Prod.fst).Nodup) (h : d.lookup k = some v) :
    (d.map Prod.fst).count k = 1 :=
  List.count_eq_one_of_mem hnd (mem_keys_of_lookup_some h)

/-! ## Behaviour of the row decoder -/

theorem except_pure_def {ε α : Type} (a : α) : (pure a : Except ε α) = Except.ok a := rfl

theorem except_bind_ok {ε α β : Type} (a : α) (g : α → Except ε β) :
    (Except.ok a >>= g : Except ε β) = g a := rfl

theorem except_bind_err {ε α β : Type} (e : ε) (g : α → Except ε β) :
    (Except.error e >>= g : Except ε β) = Except.error e := rfl

/-- The only exception the inner field loop can raise is the
`AttributeError` from `maybe_parse_scalar(None)`. -/
theorem decodeField_err {header : List String} {it : Bool} {row : List String}
    {record : Record} {f : String} {e : Err}
    (h : decodeField header it row record f = .error e) : e = .attributeError := by
  unfold decodeField at h
  by_cases hid : f = "id"
  · rw [if_pos hid] at h; simp at h
  · rw [if_neg hid] at h
    cases hg : rowGet header row f with
    | none => rw [hg] at h; simp at h
    | some o =>
      cases o with
      | some s => rw [hg] at h; simp at h
      | none =>
        rw [hg] at h
        cases it with
        | true => simp at h; exact h.symm
        | false => simp at h

/-- A successful field step either skips `id` or performs one dict update. -/
theorem decodeField_ok_shape {header : List String} {it : Bool} {row : List String}
    {record : Record} {f : String} {out : Record}
    (h : decodeField header it row record f = .ok out) :
    (f = "id" ∧ out = record) ∨ (f ≠ "id" ∧ ∃ v, out = dictUpdate record f v) := by
  unfold decodeField at h
  by_cases hid : f = "id"
  · rw [if_pos hid] at h; simp at h; exact Or.inl ⟨hid, h.symm⟩
  · rw [if_neg hid] at h
    refine Or.inr ⟨hid, ?_⟩
    cases hg : rowGet header row f with
    | none => rw [hg] at h; simp at h; exact ⟨_, h.symm⟩
    | some o =>
      cases o with
      | some s => rw [hg] at h; simp at h; exact ⟨_, h.symm⟩
      | none =>
        rw [hg] at h
        cases it with
        | true => simp at h
        | false => simp at h; exact ⟨_, h.symm⟩

theorem foldl_decodeField_err {header : List String} {it : Bool} {row : List String} :
    ∀ (fields : List String) (acc : Record) (e : Err),
    List.foldlM (decodeField header it row) acc fields = .error e → e = .attributeError := by
  intro fields
  induction fields with
  | nil => intro acc e h; simp [except_pure_def] at h
  | cons f fs ih =>
    intro acc e h
    rw [List.foldlM_cons] at h
    cases hstep : decodeField header it row acc f with
    | error e' =>
      rw [hstep] at h
      have he' : e' = e := by simpa [except_bind_err] using h
      exact he' ▸ decodeField_err hstep
    | ok acc' =>
      rw [hstep, except_bind_ok] at h
      exact ih acc' e h

theorem decodeRowRecord_err {fields header : List String} {it : Bool}
    {row : List String} {e : Err}
    (h : decodeRowRecord fields header it row = .error e) : e = .attributeError :=
  foldl_decodeField_err fields [] e h

/-- No decoded record carries an `id` field: the loop skips it. -/
theorem foldl_decodeField_noid {header : List String} {it : Bool} {row : List String} :
    ∀ (fields : List String) (acc out : Record),
    List.foldlM (decodeField header it row) acc fields = .ok out →
    (∀ p ∈ acc, p.1 ≠ "id") → ∀ p ∈ out, p.1 ≠ "id" := by
  intro fields
  induction fields with
  | nil =>
    intro acc out h hacc
    have : acc = out := by simpa [except_pure_def] using h
    exact this ▸ hacc
  | cons f fs ih =>
    intro acc out h hacc
    rw [List.foldlM_cons] at h
    cases hstep : decodeField header it row acc f with
    | error e' => rw [hstep, except_bind_err] at h; simp at h
    | ok acc' =>
      rw [hstep, except_bind_ok] at h
      refine ih acc' out h ?_
      rcases decodeField_ok_shape hstep with ⟨_, rfl⟩ | ⟨hfne, v, rfl⟩
      · exact hacc
      · intro p hp
        rcases mem_dictUpdate hp with h1 | h1
        · exact hacc p h1
        · rw [h1]; exact hfne

/-- With inference off and a full-length row, the loop only ever stores
raw strings. -/
theorem foldl_decodeField_allStr {header row : List String}
    (hlen : header.length = row.length) :
    ∀ (fields : List String) (acc out : Record),
    List.foldlM (decodeField header false row) acc fields = .ok out →
    (∀ f ∈ fields, f ∈ header) →
    (∀ p ∈ acc, ∃ s, p.2 = .str s) → ∀ p ∈ out, ∃ s, p.2 = .str s := by
  intro fields
  induction fields with
  | nil =>
    intro acc out h _ hacc
    have : acc = out := by simpa [except_pure_def] using h
    exact this ▸ hacc
  | cons f fs ih =>
    intro acc out h hsub hacc
    obtain ⟨s, hg⟩ := rowGet_full header row f hlen (hsub f (by simp))
    rw [List.foldlM_cons] at h
    by_cases hid : f = "id"
    · have hstep : decodeField header false row acc f = .ok acc := by
        simp [decodeField, hid]
      rw [hstep] at h
      exact ih acc out h (fun g hg' => hsub g (by simp [hg'])) hacc
    · have hstep : decodeField header false row acc f
          = .ok (dictUpdate acc f (.str s)) := by
        simp [decodeField, hid, hg]
      rw [hstep] at h
      refine ih _ out h (fun g hg' => hsub g (by simp [hg'])) ?_
      intro p hp
      rcases mem_dictUpdate hp with h1 | h1
      · exact hacc p h1
      · exact ⟨s, by rw [h1]⟩

/-- With a full-length row (every cell present) the field loop cannot
fail, whatever the inference flag. -/
theorem foldl_decodeField_ok {header row : List String} {it : Bool}
    (hlen : header.length = row.length) :
    ∀ (fields : List String) (acc : Record), (∀ f ∈ fields, f ∈ header) →
    ∃ out, List.foldlM (decodeField header it row) acc fields = .ok out := by
  intro fields
  induction fields with
  | nil => intro acc _; exact ⟨acc, by simp [except_pure_def]⟩
  | cons f fs ih =>
    intro acc hsub
    obtain ⟨s, hg⟩ := rowGet_full header row f hlen (hsub f (by simp))
    by_cases hid : f = "id"
    · have hstep : decodeField header it row acc f = .ok acc := by
        simp [decodeField, hid]
      obtain ⟨out, hout⟩ := ih acc (fun g hg' => hsub g (by simp [hg']))
      exact ⟨out, by rw [List.foldlM_cons, hstep, except_bind_ok]; exact hout⟩
    · have hstep : decodeField header it row acc f
          = .ok (dictUpdate acc f (if it then maybe_parse_scalar s else .str s)) := by
        simp [decodeField, hid, hg]
      obtain ⟨out, hout⟩ := ih (dictUpdate acc f (if it then maybe_parse_scalar s else .str s))
        (fun g hg' => hsub g (by simp [hg']))
      exact ⟨out, by rw [List.foldlM_cons, hstep, except_bind_ok]; exact hout⟩

/-- With inference off, a field whose cell is present decodes to exactly
that raw cell string (claim C9's core). -/
theorem foldl_decodeField_value {header row : List String} {f : String} {s : String}
    (hf : f ≠ "id") (hg : rowGet header row f = some (some s)) :
    ∀ (fields : List String) (acc out : Record),
    List.foldlM (decodeField header false row) acc fields = .ok out →
    ((f ∈ fields → out.lookup f = some (.str s)) ∧
     (f ∉ fields → out.lookup f = acc.lookup f)) := by
  intro fields
  induction fields with
  | nil =>
    intro acc out h
    have : acc = out := by simpa [except_pure_def] using h
    exact ⟨fun hmem => by simp at hmem, fun _ => by rw [this]⟩
  | cons f' fs ih =>
    intro acc out h
    rw [List.foldlM_cons] at h
    by_cases hff : f' = f
    · subst hff
      have hstep : decodeField header false row acc f'
          = .ok (dictUpdate acc f' (.str s)) := by
        simp [decodeField, hf, hg]
      rw [hstep, except_bind_ok] at h
      have ihres := ih (dictUpdate acc f' (.str s)) out h
      refine ⟨fun _ => ?_, fun hnot => absurd (by simp) hnot⟩
      by_cases hin : f' ∈ fs
      · exact ihres.1 hin
      · rw [ihres.2 hin, lookup_dictUpdate_self]
    · cases hstep : decodeField header false row acc f' with
      | error e' => rw [hstep, except_bind_err] at h; simp at h
      | ok acc' =>
        rw [hstep, except_bind_ok] at h
        have hlk : acc'.lookup f = acc.lookup f := by
          rcases decodeField_ok_shape hstep with ⟨_, rfl⟩ | ⟨_, v, rfl⟩
          · rfl
          · exact lookup_dictUpdate_ne _ _ _ _ (fun hh => hff hh.symm)
        have ihres := ih acc' out h
        constructor
        · intro hmem
          rcases List.mem_cons.mp hmem with h1 | h2
          · exact absurd h1.symm hff
          · exact ihres.1 h2
        · intro hnot
          have hfs : f ∉ fs := fun hh => hnot (List.mem_cons_of_mem _ hh)
          rw [ihres.2 hfs, hlk]

/-! ## Behaviour of the per-row loop and the whole decode -/

/-- A successful row step stores the decoded record under the trimmed id. -/
theorem decodeRow_ok_cases {fields header : List String} {it : Bool}
    {data : List (String × Record)} {row : List String} {out : List (String × Record)}
    (h : decodeRow fields header it data row = .ok out) :
    ridOf header row ≠ "" ∧
    ∃ rec, decodeRowRecord fields header it row = .ok rec ∧
      out = dictUpdate data (ridOf header row) rec := by
  unfold decodeRow at h
  by_cases hr : ridOf header row = ""
  · rw [if_pos hr] at h; simp at h
  · rw [if_neg hr] at h
    refine ⟨hr, ?_⟩
    cases hrr : decodeRowRecord fields header it row with
    | error e => rw [hrr] at h; simp [Except.map] at h
    | ok rec =>
      rw [hrr] at h
      exact ⟨rec, rfl, by simpa [Except.map] using h.symm⟩

/-- A row fails with `ValidationError` exactly when its trimmed id is
empty (the record loop can only raise `AttributeError`). -/
theorem decodeRow_validation_iff (fields header : List String) (it : Bool)
    (data : List (String × Record)) (row : List String) :
    decodeRow fields header it data row = .error .validationError ↔
      ridOf header row = "" := by
  constructor
  · intro h
    by_contra hr
    unfold decodeRow at h
    rw [if_neg hr] at h
    cases hrr : decodeRowRecord fields header it row with
    | error e =>
      rw [hrr] at h
      simp [Except.map] at h
      exact absurd (h ▸ decodeRowRecord_err hrr) (by simp [h])
    | ok rec => rw [hrr] at h; simp [Except.map] at h
  · intro h
    unfold decodeRow
    rw [if_pos h]

/-- The master induction over the row loop: key-nodup preservation, keys
untouched by any row, and last-written-record lookup. -/
theorem decodeRows_spec (fields header : List String) (it : Bool) :
    ∀ (rows : List (List String)) (data out : List (String × Record)),
    decodeRows fields header it data rows = .ok out →
    (((data.map Prod.fst).Nodup → (out.map Prod.fst).Nodup) ∧
     (∀ k, rows.filter (fun r => ridOf header r = k) = [] →
        out.lookup k = data.lookup k) ∧
     (∀ k pre lastRow, rows.filter (fun r => ridOf header r = k) = pre ++ [lastRow] →
        ∃ rec, decodeRowRecord fields header it lastRow = .ok rec ∧
          out.lookup k = some rec)) := by
  intro rows
  induction rows with
  | nil =>
    intro data out h
    have hdo : data = out := by simpa [decodeRows, except_pure_def] using h
    subst hdo
    exact ⟨fun hh => hh, fun _ _ => rfl, fun k pre lastRow hfil => by simp at hfil⟩
  | cons row rows' ih =>
    intro data out h
    rw [decodeRows, List.foldlM_cons] at h
    cases hstep : decodeRow fields header it data row with
    | error e => rw [hstep, except_bind_err] at h; simp at h
    | ok data' =>
      rw [hstep, except_bind_ok] at h
      obtain ⟨hrid, rec0, hrec0, hdata'⟩ := decodeRow_ok_cases hstep
      have ihres := ih data' out h
      refine ⟨?_, ?_, ?_⟩
      · intro hnd
        exact ihres.1 (hdata' ▸ nodup_keys_dictUpdate hnd)
      · intro k hfil
        rw [List.filter_cons] at hfil
        by_cases hk : ridOf header row = k
        · simp [hk] at hfil
        · rw [if_neg (by simpa using hk)] at hfil
          rw [ihres.2.1 k hfil, hdata',
            lookup_dictUpdate_ne _ _ _ _ (fun hh => hk hh.symm)]
      · intro k pre lastRow hfil
        rw [List.filter_cons] at hfil
        by_cases hk : ridOf header row = k
        · rw [if_pos (by simpa using hk)] at hfil
          cases hrest : rows'.filter (fun r => ridOf header r = k) with
          | nil =>
            rw [hrest] at hfil
            have hpre : pre = [] ∧ lastRow = row := by
              cases pre with
              | nil =>
                refine ⟨rfl, ?_⟩
                simpa using hfil.symm
              | cons p ps =>
                have := congrArg List.length hfil
                simp at this
            obtain ⟨rfl, rfl⟩ := hpre
            refine ⟨rec0, hrec0, ?_⟩
            rw [ihres.2.1 k hrest, hdata', hk]
            exact lookup_dictUpdate_self data k rec0
          | cons r0 rs0 =>
            rw [hrest] at hfil
            cases pre with
            | nil =>
              have := congrArg List.length hfil
              simp at this
            | cons p ps =>
              rw [List.cons_append] at hfil
              have hps : rows'.filter (fun r => ridOf header r = k) = ps ++ [lastRow] := by
                rw [hrest]
                exact (List.cons.injEq _ _ _ _ ▸ hfil).2
              exact ihres.2.2 k ps lastRow hps
        · rw [if_neg (by simpa using hk)] at hfil
          exact ihres.2.2 k pre lastRow hfil

/-- The decode loop succeeds on full-length rows with nonblank ids. -/
theorem decodeRows_ok (fields header : List String) (it : Bool) :
    ∀ (rows : List (List String)) (data : List (String × Record)),
    (∀ f ∈ fields, f ∈ header) →
    (∀ row ∈ rows, header.length = row.length ∧ ridOf header row ≠ "") →
    ∃ out, decodeRows fields header it data rows = .ok out := by
  intro rows
  induction rows with
  | nil => intro data _ _; exact ⟨data, by simp [decodeRows, except_pure_def]⟩
  | cons row rows' ih =>
    intro data hsub hrows
    obtain ⟨hlen, hrid⟩ := hrows row (by simp)
    obtain ⟨rec, hrec⟩ := @foldl_decodeField_ok header row it hlen fields [] hsub
    have hstep : decodeRow fields header it data row
        = .ok (dictUpdate data (ridOf header row) rec) := by
      unfold decodeRow
      rw [if_neg hrid, decodeRowRecord, hrec]
      rfl
    obtain ⟨out, hout⟩ := ih (dictUpdate data (ridOf header row) rec) hsub
      (fun r hr => hrows r (List.mem_cons_of_mem _ hr))
    exact ⟨out, by rw [decodeRows, List.foldlM_cons, hstep, except_bind_ok]; exact hout⟩

/-- With inference off and full-length rows, every stored value in the
decoded record set is a raw string. -/
theorem decodeRows_allStr (fields header : List String) :
    ∀ (rows : List (List String)) (data out : List (String × Record)),
    decodeRows fields header false data rows = .ok out →
    (∀ f ∈ fields, f ∈ header) →
    (∀ row ∈ rows, header.length = row.length) →
    (∀ p ∈ data, ∀ q ∈ p.2, ∃ s, q.2 = Scalar.str s) →
    ∀ p ∈ out, ∀ q ∈ p.2, ∃ s, q.2 = Scalar.str s := by
  intro rows
  induction rows with
  | nil =>
    intro data out h _ _ hdata
    have : data = out := by simpa [decodeRows, except_pure_def] using h
    exact this ▸ hdata
  | cons row rows' ih =>
    intro data out h hsub hlens hdata
    rw [decodeRows, List.foldlM_cons] at h
    cases hstep : decodeRow fields header false data row with
    | error e => rw [hstep, except_bind_err] at h; simp at h
    | ok data' =>
      rw [hstep, except_bind_ok] at h
      obtain ⟨_, rec, hrec, hdata'⟩ := decodeRow_ok_cases hstep
      have hrecstr : ∀ q ∈ rec, ∃ s, q.2 = Scalar.str s :=
        foldl_decodeField_allStr (hlens row (by simp)) fields [] rec hrec hsub
          (by simp)
      refine ih data' out h hsub (fun r hr => hlens r (List.mem_cons_of_mem _ hr)) ?_
      intro p hp
      rw [hdata'] at hp
      rcases mem_dictUpdate hp with h1 | h1
      · exact hdata p h1
      · rw [h1]; exact hrecstr


/-- No record in the decoded record set carries an `id` field. -/
theorem decodeRows_noid (fields header : List String) (it : Bool) :
    ∀ (rows : List (List String)) (data out : List (String × Record)),
    decodeRows fields header it data rows = .ok out →
    (∀ p ∈ data, p.2.lookup "id" = none) →
    ∀ p ∈ out, p.2.lookup "id" = none := by
  intro rows
  induction rows with
  | nil =>
    intro data out h _
    have : data = out := by simpa [decodeRows, except_pure_def] using h
    exact this ▸ (by assumption)
  | cons row rows' ih =>
    intro data out h hdata
    rw [decodeRows, List.foldlM_cons] at h
    cases hstep : decodeRow fields header it data row with
    | error e => rw [hstep, except_bind_err] at h; simp at h
    | ok data' =>
      rw [hstep, except_bind_ok] at h
      obtain ⟨_, rec, hrec, hdata'⟩ := decodeRow_ok_cases hstep
      have hrecnoid : ∀ q ∈ rec, q.1 ≠ "id" :=
        foldl_decodeField_noid fields [] rec hrec (by simp)
      refine ih data' out h ?_
      intro p hp
      rw [hdata'] at hp
      rcases mem_dictUpdate hp with h1 | h1
      · exact hdata p h1
      · rw [h1]
        exact lookup_none_of_no_key hrecnoid

/-! ## The encoder on all-record data, and field inference -/

theorem encodeRow_length (fields : List String) (k : String) (r : Record) :
    (encodeRow fields k r).length = fields.length :=
  List.length_map _ _

theorem mapM_encode (fields : List String) :
    ∀ data : RecordSet, (∀ kv ∈ data, ∃ r, kv.2 = JVal.record r) →
    (data.mapM fun kv =>
        match kv.2 with
        | .nonRec => Except.error Err.schemaError
        | .record r => Except.ok (encodeRow fields kv.1 r))
      = .ok (data.map fun kv => encodeRow fields kv.1 (projRec kv.2)) := by
  intro data
  induction data with
  | nil => intro _; rfl
  | cons kv t ih =>
    intro hrec
    obtain ⟨r, hr⟩ := hrec kv (by simp)
    rw [List.mapM_cons]
    rw [show (match kv.2 with
        | JVal.nonRec => Except.error Err.schemaError
        | JVal.record r => Except.ok (encodeRow fields kv.1 r))
        = Except.ok (encodeRow fields kv.1 (projRec kv.2)) from by rw [hr]; rfl]
    rw [except_bind_ok, ih (fun kv' h' => hrec kv' (List.mem_cons_of_mem _ h')),
      except_bind_ok]
    rfl

/-- On all-record data the encoder produces exactly the written header
and data rows. -/
theorem json_to_csv_text_ok (data : RecordSet) (fields : List String)
    (hrec : ∀ kv ∈ data, ∃ r, kv.2 = JVal.record r) :
    json_to_csv_text data fields = .ok
      ⟨writeRows (((fields :: data.map fun kv => encodeRow fields kv.1 (projRec kv.2)).map
        (·.map String.data)))⟩ := by
  unfold json_to_csv_text
  rw [mapM_encode fields data hrec, except_bind_ok]

theorem foldl_inferKeys_ok :
    ∀ (data : RecordSet) (acc : List String),
    (∀ kv ∈ data, ∃ r, kv.2 = JVal.record r) →
    (data.foldlM
        (fun acc kv =>
          match kv.2 with
          | .nonRec => Except.error Err.schemaError
          | .record r => Except.ok (acc ++ r.map Prod.fst))
        acc)
      = .ok (acc ++ data.flatMap fun kv => (projRec kv.2).map Prod.fst) := by
  intro data
  induction data with
  | nil => intro acc _; simp [except_pure_def]
  | cons kv t ih =>
    intro acc hrec
    obtain ⟨r, hr⟩ := hrec kv (by simp)
    rw [List.foldlM_cons]
    rw [show (match kv.2 with
        | JVal.nonRec => Except.error Err.schemaError
        | JVal.record r => Except.ok (acc ++ r.map Prod.fst))
        = Except.ok (acc ++ (projRec kv.2).map Prod.fst) from by rw [hr]; rfl]
    rw [except_bind_ok, ih _ (fun kv' h' => hrec kv' (List.mem_cons_of_mem _ h'))]
    simp

/-- `infer_fields_from_json` on all-record data: `id` first, then the
sorted set of all other field names. -/
theorem infer_fields_from_json_ok (data : RecordSet)
    (hrec : ∀ kv ∈ data, ∃ r, kv.2 = JVal.record r) :
    infer_fields_from_json data = .ok ("id" :: pySortedSet
      (((data.flatMap fun kv => (projRec kv.2).map Prod.fst)).filter (· ≠ "id"))) := by
  unfold infer_fields_from_json
  rw [foldl_inferKeys_ok data [] hrec, except_bind_ok]
  simp

/-- `infer_fields_from_json` raises `SchemaError` as soon as an entry is
not a record. -/
theorem infer_fields_from_json_err (data : RecordSet)
    (hnr : ∃ kv ∈ data, kv.2 = JVal.nonRec) :
    infer_fields_from_json data = .error .schemaError := by
  unfold infer_fields_from_json
  suffices h : ∀ (data : RecordSet) (acc : List String),
      (∃ kv ∈ data, kv.2 = JVal.nonRec) →
      (data.foldlM
          (fun acc kv =>
            match kv.2 with
            | .nonRec => Except.error Err.schemaError
            | .record r => Except.ok (acc ++ r.map Prod.fst))
          acc)
        = .error .schemaError by
    rw [h data [] hnr]; rfl
  intro d
  induction d with
  | nil => intro acc h; simp at h
  | cons kv t ih =>
    intro acc h
    rw [List.foldlM_cons]
    cases hv : kv.2 with
    | nonRec => rfl
    | record r =>
      rw [show (match JVal.record r with
          | JVal.nonRec => Except.error Err.schemaError
          | JVal.record r => Except.ok (acc ++ r.map Prod.fst))
          = Except.ok (acc ++ r.map Prod.fst) from rfl]
      rw [except_bind_ok]
      refine ih _ ?_
      obtain ⟨kv', hkv', hnr'⟩ := h
      rcases List.mem_cons.mp hkv' with h1 | h1
      · subst h1; rw [hv] at hnr'; cases hnr'
      · exact ⟨kv', h1, hnr'⟩

/-- Decomposition of a successful JSON field inference. -/
theorem infer_fields_from_json_shape {data : RecordSet} {fields : List String}
    (h : infer_fields_from_json data = .ok fields) :
    ∃ rest, fields = "id" :: rest ∧ "id" ∉ rest ∧ rest.Nodup ∧
      List.Sorted pyLe rest := by
  unfold infer_fields_from_json at h
  cases hf : (data.foldlM
      (fun acc kv =>
        match kv.2 with
        | .nonRec => Except.error Err.schemaError
        | .record r => Except.ok (acc ++ r.map Prod.fst))
      ([] : List String)) with
  | error e => rw [hf] at h; cases h
  | ok keys =>
    rw [hf, except_bind_ok] at h
    have hfields : fields = "id" :: pySortedSet (keys.filter (· ≠ "id")) := by
      simpa using h.symm
    refine ⟨pySortedSet (keys.filter (· ≠ "id")), hfields, ?_, pySortedSet_nodup _,
      pySortedSet_sorted _⟩
    intro hmem
    have := (pySortedSet_mem _ _).mp hmem
    simp at this

/-- A header that is literally `id` followed by non-`id` columns is
reproduced by `infer_fields_from_csv`. -/
theorem infer_fields_from_csv_id_front (rest : List String) (hid : "id" ∉ rest) :
    infer_fields_from_csv (some ("id" :: rest)) = .ok ("id" :: rest) := by
  have hdef : infer_fields_from_csv (some ("id" :: rest))
      = if "id" ∈ ("id" :: rest) then
          Except.ok ("id" :: ("id" :: rest).filter (· ≠ "id"))
        else Except.error Err.schemaError := rfl
  have hfil : ("id" :: rest).filter (· ≠ "id") = rest := by
    rw [List.filter_cons, if_neg (by simp)]
    exact List.filter_eq_self.mpr fun x hx =>
      decide_eq_true fun hh : x = "id" => hid (hh ▸ hx)
  rw [hdef, if_pos (by simp), hfil]

theorem any_missing_self (l : List String) : (l.any fun h => !l.contains h) = false := by
  rw [Bool.eq_false_iff]
  intro hcon
  obtain ⟨x, hx, hnc⟩ := List.any_eq_true.mp hcon
  simp at hnc
  exact hnc hx

/-- Decoding what the encoder just wrote reduces to the row loop over the
encoded data rows, against the encoded header. -/
theorem csv_text_to_json_encoded (data : RecordSet) (rest : List String)
    (f0 : List String) (it : Bool)
    (hrec : ∀ kv ∈ data, ∃ r, kv.2 = JVal.record r) (hid : "id" ∉ rest) :
    ∀ csv, json_to_csv_text data ("id" :: rest) = .ok csv →
    csv_text_to_json csv f0 it
      = decodeRows ("id" :: rest) ("id" :: rest) it []
          (data.map fun kv => encodeRow ("id" :: rest) kv.1 (projRec kv.2)) := by
  intro csv hcsv
  rw [json_to_csv_text_ok data _ hrec] at hcsv
  have hc : csv = ⟨writeRows (((("id" :: rest) ::
      data.map fun kv => encodeRow ("id" :: rest) kv.1 (projRec kv.2)).map
      (·.map String.data)))⟩ := by
    simpa using hcsv.symm
  subst hc
  have hne : ∀ row ∈ ("id" :: rest) ::
      (data.map fun kv => encodeRow ("id" :: rest) kv.1 (projRec kv.2)), row ≠ [] := by
    intro row hrow
    rcases List.mem_cons.mp hrow with h1 | h1
    · subst h1; simp
    · obtain ⟨kv, _, rfl⟩ := List.mem_map.mp h1
      have : (encodeRow ("id" :: rest) kv.1 (projRec kv.2)).length
          = ("id" :: rest).length := encodeRow_length _ _ _
      intro hnil
      rw [hnil] at this
      simp at this
  have hparse := csvParse_writeRows (("id" :: rest) ::
    (data.map fun kv => encodeRow ("id" :: rest) kv.1 (projRec kv.2))) hne
  unfold csv_text_to_json
  rw [hparse]
  simp only [List.head?_cons, List.headD_cons, List.tail_cons]
  have hfil : (data.map fun kv => encodeRow ("id" :: rest) kv.1 (projRec kv.2)).filter
      (· ≠ []) = data.map fun kv => encodeRow ("id" :: rest) kv.1 (projRec kv.2) :=
    List.filter_eq_self.mpr fun row hrow =>
      decide_eq_true (hne row (List.mem_cons_of_mem _ hrow))
  rw [infer_fields_from_csv_id_front rest hid]
  simp only [any_missing_self, Bool.false_eq_true, if_false, hfil]

/-! ## Extracting facts from a successful Python `==` -/

theorem mem_of_lookup_some {α : Type} {d : List (String × α)} {k : String} {v : α}
    (h : d.lookup k = some v) : (k, v) ∈ d := by
  induction d with
  | nil => simp [List.lookup] at h
  | cons q t ih =>
    cases q with
    | mk k0 v0 =>
      by_cases hk : k = k0
      · subst hk
        rw [lookup_cons_self] at h
        have : v0 = v := by simpa using h
        subst this
        simp
      · rw [lookup_cons_ne _ _ _ _ hk] at h
        exact List.mem_cons_of_mem _ (ih h)

theorem pyEqAssoc_lookup {α β : Type} (eqv : α → β → Bool) {r1 : List (String × α)}
    {r2 : List (String × β)} (h : pyEqAssoc eqv r1 r2 = true) {k : String} {a : α}
    (hk : r1.lookup k = some a) : ∃ b, r2.lookup k = some b ∧ eqv a b = true := by
  unfold pyEqAssoc at h
  simp only [Bool.and_eq_true, List.all_eq_true] at h
  obtain ⟨⟨_, _⟩, h3⟩ := h
  have hkmem : k ∈ (r1.map Prod.fst).dedup :=
    List.mem_dedup.mpr (mem_keys_of_lookup_some hk)
  have hmatch := h3 k hkmem
  rw [hk] at hmatch
  cases hl : r2.lookup k with
  | none => rw [hl] at hmatch; simp at hmatch
  | some b => rw [hl] at hmatch; exact ⟨b, rfl, hmatch⟩

/-- In Python a number (int or float) never equals a string. -/
theorem pyEqScalar_numeric_str {x : Scalar} (hx : isNumeric x = true) (s : String) :
    pyEqScalar x (.str s) = false := by
  cases x <;> simp [isNumeric] at hx <;> rfl

/-! ## The claims -/

/-- C2: the claim says a data row shorter than the field list is padded
with empty strings before decoding, never yielding `None` and never
raising outside the specified error kinds.  The code disagrees: the
`DictReader` fills missing cells with `restval = None`, so on the CSV
`id,a,b\r\nk1,x` the short row stores Python `None` (JSON `null`) for
`b` when inference is off, and raises an uncaught `AttributeError`
(`None.strip()` inside `maybe_parse_scalar`) when inference is on. -/
theorem claim2_short_row_defaults :
    csv_text_to_json "id,a,b\r\nk1,x" [] true = .error .attributeError ∧
    csv_text_to_json "id,a,b\r\nk1,x" [] false
      = .ok [("k1", [("a", Scalar.str "x"), ("b", Scalar.null)])] :=
  ⟨by decide, by decide⟩

/-- C3 counterexample: a header in which `id` appears twice does not
fail with `SchemaError`; `infer_fields_from_csv` accepts it and silently
collapses the duplicates. -/
theorem claim3_counterexample :
    infer_fields_from_csv (some ["id", "id", "a"]) = .ok ["id", "a"] ∧
    infer_fields_from_csv (some ["id", "id", "a"]) ≠ .error .schemaError :=
  ⟨by decide, by decide⟩

/-- C3 (amended): a duplicate `id` header is accepted, not rejected:
field inference returns `id` followed by the non-`id` headers in order,
so `id` still occurs exactly once in the result. -/
theorem claim3_amended (hs : List String) (hcount : 2 ≤ hs.count "id") :
    infer_fields_from_csv (some hs) = .ok ("id" :: hs.filter (· ≠ "id")) ∧
    ("id" :: hs.filter (· ≠ "id")).count "id" = 1 := by
  have hmem : "id" ∈ hs := List.count_pos_iff.mp (by omega)
  cases hs with
  | nil => simp at hmem
  | cons a t =>
    have hdef : infer_fields_from_csv (some (a :: t))
        = if "id" ∈ a :: t then Except.ok ("id" :: (a :: t).filter (· ≠ "id"))
          else Except.error Err.schemaError := rfl
    rw [hdef, if_pos hmem]
    refine ⟨rfl, ?_⟩
    have hzero : (((a :: t).filter (· ≠ "id")).count "id") = 0 := by
      rw [List.count_eq_zero]
      intro hmem'
      have hp := List.of_mem_filter hmem'
      simp at hp
    rw [List.count_cons_self, hzero]

theorem claim3_amended_witness :
    2 ≤ (["id", "id", "a"].count "id") ∧
    infer_fields_from_csv (some ["id", "id", "a"])
      = .ok ("id" :: ["id", "id", "a"].filter (· ≠ "id")) ∧
    ("id" :: ["id", "id", "a"].filter (· ≠ "id")).count "id" = 1 :=
  ⟨by decide, (claim3_amended ["id", "id", "a"] (by decide)).1,
    (claim3_amended ["id", "id", "a"] (by decide)).2⟩

/-- C4 counterexample: the claim's integer grammar (optional leading `-`
then digits) predicts that `"+5"` misses probe 2 and lands on the float
probe, but Python's `int("+5")` accepts the `+` sign, so the code returns
the integer `5`. -/
theorem claim4_counterexample :
    maybe_parse_scalar "+5" = Scalar.int 5 ∧
    scalarDecodeAsSpecified "+5" = Scalar.float "+5" ∧
    maybe_parse_scalar "+5" ≠ scalarDecodeAsSpecified "+5" :=
  ⟨by decide, by decide, by decide⟩

/-- C4 (amended): `maybe_parse_scalar` applies the probes in order with
first match winning — empty-after-trim, then Python's full `int` grammar
(optional `+` or `-` sign, underscores between digits), then Python's
`float`, then case-insensitive booleans, else the original untrimmed
string — and never fails (it is a total function). -/
theorem claim4_amended (s : String) : maybe_parse_scalar s = scalarDecodeAmended s := by
  unfold maybe_parse_scalar scalarDecodeAmended pyParseInt pyIntCore pyIntOk pyIntVal
  by_cases h0 : pyStrip s = ""
  · simp [h0]
  · rw [if_neg h0, if_neg h0]
    cases hsign : pyIntSign (pyStrip s).data with
    | mk pos body =>
      cases hd : digitsU body <;> simp [hd]

/-- C6: `fromCsvHeader` fails with `SchemaError` exactly on a missing
header row, an empty header, or a header without `id`; otherwise it
returns `id` first, followed by the non-`id` columns in their original
relative order. -/
theorem claim6_fromCsvHeader (hs : List String) :
    infer_fields_from_csv none = .error .schemaError ∧
    (infer_fields_from_csv (some hs) = .error .schemaError ↔ (hs = [] ∨ "id" ∉ hs)) ∧
    ("id" ∈ hs → infer_fields_from_csv (some hs) = .ok ("id" :: hs.filter (· ≠ "id"))) := by
  cases hs with
  | nil => exact ⟨rfl, ⟨fun _ => Or.inl rfl, fun _ => rfl⟩, fun hm => by simp at hm⟩
  | cons a t =>
    have hdef : infer_fields_from_csv (some (a :: t))
        = if "id" ∈ a :: t then Except.ok ("id" :: (a :: t).filter (· ≠ "id"))
          else Except.error Err.schemaError := rfl
    refine ⟨rfl, ?_, fun hm => by rw [hdef, if_pos hm]⟩
    by_cases hm : "id" ∈ a :: t
    · rw [hdef, if_pos hm]; simp [hm]
    · rw [hdef, if_neg hm]; simp [hm]

theorem claim6_witness :
    infer_fields_from_csv (some ["name", "age"]) = .error .schemaError ∧
    infer_fields_from_csv (some ["b", "id", "a"])
      = .ok ("id" :: ["b", "id", "a"].filter (· ≠ "id")) :=
  ⟨(claim6_fromCsvHeader ["name", "age"]).2.1.mpr (Or.inr (by decide)),
   (claim6_fromCsvHeader ["b", "id", "a"]).2.2 (by decide)⟩

/-- C7: each data row's entry is keyed by the trimmed `id` cell, and the
row fails with `ValidationError` exactly when that trimmed cell is empty
(whitespace-only cells included). -/
theorem claim7_row_id_key (fields header : List String) (it : Bool)
    (data : List (String × Record)) (row : List String) :
    (decodeRow fields header it data row = .error .validationError ↔
      pyStrip (rowIdCell header row) = "") ∧
    ∀ out, decodeRow fields header it data row = .ok out →
      ∃ rec, decodeRowRecord fields header it row = .ok rec ∧
        out = dictUpdate data (pyStrip (rowIdCell header row)) rec := by
  refine ⟨decodeRow_validation_iff fields header it data row, fun out hout => ?_⟩
  obtain ⟨_, rec, hrec, hupd⟩ := decodeRow_ok_cases hout
  exact ⟨rec, hrec, hupd⟩

theorem claim7_witness :
    decodeRow ["id", "a"] ["id", "a"] false [] ["  ", "x"] = .error .validationError ∧
    decodeRow ["id", "a"] ["id", "a"] false [] [" k1 ", "x"]
      = .ok (dictUpdate [] (pyStrip (rowIdCell ["id", "a"] [" k1 ", "x"]))
          [("a", Scalar.str "x")]) := by
  refine ⟨(claim7_row_id_key ["id", "a"] ["id", "a"] false [] ["  ", "x"]).1.mpr
    (by decide), ?_⟩
  have hok : decodeRow ["id", "a"] ["id", "a"] false [] [" k1 ", "x"]
      = .ok [("k1", [("a", Scalar.str "x")])] := by decide
  obtain ⟨rec, hrec, hupd⟩ :=
    (claim7_row_id_key ["id", "a"] ["id", "a"] false [] [" k1 ", "x"]).2 _ hok
  have hrecv : rec = [("a", Scalar.str "x")] := by
    have := hrec.symm.trans (show decodeRowRecord ["id", "a"] ["id", "a"] false
      [" k1 ", "x"] = .ok [("a", Scalar.str "x")] from by decide)
    simpa using this
  rw [hok, hupd, hrecv]

/-- C9: with inference off, a present cell is stored exactly as read
(untrimmed); trimming happens only on the probe input inside
`maybe_parse_scalar`, whose string fall-through returns the original
untrimmed text. -/
theorem claim9_untrimmed_storage (fields header row : List String) (rec : Record)
    (f s : String)
    (hdec : decodeRowRecord fields header false row = .ok rec)
    (hmem : f ∈ fields) (hfid : f ≠ "id")
    (hcell : rowGet header row f = some (some s)) :
    rec.lookup f = some (Scalar.str s) ∧
    ∀ t u, maybe_parse_scalar t = Scalar.str u → (u = "" ∧ pyStrip t = "") ∨ u = t := by
  constructor
  · exact (foldl_decodeField_value hfid hcell fields [] rec hdec).1 hmem
  · intro t u h
    unfold maybe_parse_scalar at h
    by_cases h0 : pyStrip t = ""
    · rw [if_pos h0] at h
      have hu : "" = u := by simpa using h
      exact Or.inl ⟨hu.symm, h0⟩
    · rw [if_neg h0] at h
      cases hint : pyParseInt (pyStrip t) with
      | some i => rw [hint] at h; simp at h
      | none =>
        rw [hint] at h
        by_cases hfl : pyFloatOk (pyStrip t)
        · rw [if_pos hfl] at h; simp at h
        · rw [if_neg hfl] at h
          by_cases htr : pyLower (pyStrip t) = "true"
          · rw [if_pos htr] at h; simp at h
          · rw [if_neg htr] at h
            by_cases hfa : pyLower (pyStrip t) = "false"
            · rw [if_pos hfa] at h; simp at h
            · rw [if_neg hfa] at h
              exact Or.inr (by simpa using h.symm)

theorem claim9_witness :
    (([("a", Scalar.str " x ")] : Record).lookup "a" = some (Scalar.str " x ")) ∧
    (∀ t u, maybe_parse_scalar t = Scalar.str u → (u = "" ∧ pyStrip t = "") ∨ u = t) :=
  claim9_untrimmed_storage ["id", "a"] ["id", "a"] ["k1", " x "]
    [("a", Scalar.str " x ")] "a" " x " (by decide) (by decide) (by decide) (by decide)

/-- C8: when two or more data rows share the same trimmed id, the
decoded record set holds exactly one entry for that key, and its record
is the one decoded from the last such row. -/
theorem claim8_last_wins (fields header : List String) (it : Bool)
    (rows : List (List String)) (out : List (String × Record)) (k : String)
    (pre : List (List String)) (lastRow : List String)
    (hdec : decodeRows fields header it [] rows = .ok out)
    (hfil : rows.filter (fun r => ridOf header r = k) = pre ++ [lastRow])
    (htwo : 2 ≤ (rows.filter (fun r => ridOf header r = k)).length) :
    (out.map Prod.fst).count k = 1 ∧
    ∃ rec, decodeRowRecord fields header it lastRow = .ok rec ∧
      out.lookup k = some rec := by
  have hspec := decodeRows_spec fields header it rows [] out hdec
  obtain ⟨rec, hrec, hlk⟩ := hspec.2.2 k pre lastRow hfil
  exact ⟨count_keys_eq_one (hspec.1 (by simp)) hlk, rec, hrec, hlk⟩

theorem claim8_witness :
    (([("k1", [("x", Scalar.str "2")])] : List (String × Record)).map Prod.fst).count "k1"
      = 1 ∧
    ∃ rec, decodeRowRecord ["id", "x"] ["id", "x"] false ["k1", "2"] = .ok rec ∧
      ([("k1", [("x", Scalar.str "2")])] : List (String × Record)).lookup "k1"
        = some rec :=
  claim8_last_wins ["id", "x"] ["id", "x"] false [["k1", "1"], ["k1", "2"]]
    [("k1", [("x", Scalar.str "2")])] "k1" [["k1", "1"]] ["k1", "2"]
    (by decide) (by decide) (by decide)

/-- C5: `fromRecordSet` on all-record data yields `id` followed by the
sorted (codepoint order), duplicate-free union of all non-`id` field
names; the result is invariant under permuting each record's fields; a
non-record entry raises `SchemaError`. -/
theorem claim5_fromRecordSet (data data' : RecordSet) :
    ((∀ kv ∈ data, ∃ r, kv.2 = JVal.record r) →
      ∃ rest, infer_fields_from_json data = .ok ("id" :: rest) ∧
        List.Sorted pyLe rest ∧ rest.Nodup ∧ "id" ∉ rest ∧
        (∀ x, x ∈ rest ↔
          (x ≠ "id" ∧ ∃ kv ∈ data, x ∈ (projRec kv.2).map Prod.fst))) ∧
    (List.Forall₂ (fun kv kv' => kv.1 = kv'.1 ∧
        ∃ r r', kv.2 = JVal.record r ∧ kv'.2 = JVal.record r' ∧ r.Perm r') data data' →
      infer_fields_from_json data = infer_fields_from_json data') ∧
    ((∃ kv ∈ data, kv.2 = JVal.nonRec) →
      infer_fields_from_json data = .error .schemaError) := by
  refine ⟨?_, ?_, infer_fields_from_json_err data⟩
  · intro hrec
    refine ⟨_, infer_fields_from_json_ok data hrec, pySortedSet_sorted _,
      pySortedSet_nodup _, ?_, ?_⟩
    · intro hmem
      have := (pySortedSet_mem _ _).mp hmem
      simp at this
    · intro x
      rw [pySortedSet_mem, List.mem_filter]
      constructor
      · rintro ⟨hmemf, hne⟩
        refine ⟨by simpa using hne, ?_⟩
        simpa using hmemf
      · rintro ⟨hne, hkv⟩
        exact ⟨by simpa using hkv, by simpa using hne⟩
  · intro hfa
    have hrec1 : ∀ kv ∈ data, ∃ r, kv.2 = JVal.record r := by
      intro kv hkv
      revert hkv
      induction hfa with
      | nil => intro h; simp at h
      | cons hpair _ ih =>
        intro hkv
        rcases List.mem_cons.mp hkv with h1 | h1
        · obtain ⟨_, r, r', hr, _, _⟩ := hpair
          exact ⟨r, h1 ▸ hr⟩
        · exact ih h1
    have hrec2 : ∀ kv ∈ data', ∃ r, kv.2 = JVal.record r := by
      clear hrec1
      intro kv hkv
      revert hkv
      induction hfa with
      | nil => intro h; simp at h
      | cons hpair _ ih =>
        intro hkv
        rcases List.mem_cons.mp hkv with h1 | h1
        · obtain ⟨_, r, r', _, hr', _⟩ := hpair
          exact ⟨r', h1 ▸ hr'⟩
        · exact ih h1
    have hperm : (data.flatMap fun kv => (projRec kv.2).map Prod.fst).Perm
        (data'.flatMap fun kv => (projRec kv.2).map Prod.fst) := by
      clear hrec1 hrec2
      induction hfa with
      | nil => rfl
      | cons hpair _ ih =>
        obtain ⟨_, r, r', hr, hr', hp⟩ := hpair
        simp only [List.flatMap_cons, hr, hr',
          show projRec (JVal.record r) = r from rfl,
          show projRec (JVal.record r') = r' from rfl]
        exact List.Perm.append (hp.map Prod.fst) ih
    rw [infer_fields_from_json_ok data hrec1, infer_fields_from_json_ok data' hrec2,
      pySortedSet_eq_of_perm (hperm.filter _)]

theorem claim5_witness :
    infer_fields_from_json [("k", JVal.record [("b", Scalar.int 1), ("a", Scalar.int 2)])]
      = infer_fields_from_json
          [("k", JVal.record [("a", Scalar.int 2), ("b", Scalar.int 1)])] ∧
    infer_fields_from_json [("k", JVal.record [("b", Scalar.int 1), ("a", Scalar.int 2)])]
      = .ok ["id", "a", "b"] :=
  ⟨(claim5_fromRecordSet _ _).2.1
      (List.Forall₂.cons
        ⟨rfl, [("b", Scalar.int 1), ("a", Scalar.int 2)],
          [("a", Scalar.int 2), ("b", Scalar.int 1)], rfl, rfl, by decide⟩
        List.Forall₂.nil),
   by decide⟩

theorem lastOcc_none (l : List String) (f : String) (h : f ∉ l) :
    lastOcc l f = none := by
  induction l with
  | nil => rfl
  | cons a t ih =>
    simp only [lastOcc]
    rw [ih (fun hh => h (List.mem_cons_of_mem _ hh)),
      if_neg (fun hh : a = f => h (by rw [← hh]; exact List.mem_cons_self a t))]

/-- The trimmed id of an encoded row is the trimmed entry key. -/
theorem ridOf_encodeRow (rest : List String) (hid : "id" ∉ rest) (k : String)
    (r : Record) :
    ridOf ("id" :: rest) (encodeRow ("id" :: rest) k r) = pyStrip k := by
  have hlast : lastOcc ("id" :: rest) "id" = some 0 := by
    simp only [lastOcc]
    rw [lastOcc_none rest "id" hid]
    simp
  have hhead : encodeRow ("id" :: rest) k r
      = k :: rest.map
          (fun f => if f = "id" then k else strOfScalar ((r.lookup f).getD (.str ""))) := by
    simp [encodeRow]
  unfold ridOf rowIdCell rowGet
  rw [hlast, hhead]
  rfl

/-- C1 counterexample: this record set holds the numeric value `5`, yet
verification fails under BOTH settings of `inferTypes`: with
`inferTypes=true` the digit-string value `"7"` decodes back as the
integer `7`, so the claim's "passes when `inferTypes=true`" direction is
false on this input. -/
theorem claim1_counterexample :
    isNumeric (Scalar.int 5) = true ∧
    verify_roundtrip [("k1", JVal.record [("x", Scalar.int 5), ("y", Scalar.str "7")])]
      true = .ok false ∧
    verify_roundtrip [("k1", JVal.record [("x", Scalar.int 5), ("y", Scalar.str "7")])]
      false = .ok false :=
  ⟨rfl, by decide, by decide⟩

/-- C1 (amended): encode-then-decode with `inferTypes=false` yields only
string values, and on a record set holding at least one numeric value the
`cmd_verify` comparison with `inferTypes=false` always reports FAIL.
(With `inferTypes=true` the comparison may pass or fail; see the
counterexample.) -/
theorem claim1_no_inference_roundtrip (data : RecordSet)
    (hnodup : (data.map Prod.fst).Nodup)
    (hrec : ∀ kv ∈ data, ∃ r, kv.2 = JVal.record r ∧ (r.map Prod.fst).Nodup) :
    (∀ fields csv rt,
      infer_fields_from_json data = .ok fields →
      json_to_csv_text data fields = .ok csv →
      csv_text_to_json csv fields false = .ok rt →
      ∀ p ∈ rt, ∀ q ∈ p.2, ∃ s, q.2 = Scalar.str s) ∧
    ((∃ kv ∈ data, ∃ r, kv.2 = JVal.record r ∧ ∃ fv ∈ r, isNumeric fv.2 = true) →
      ∀ b, verify_roundtrip data false = .ok b → b = false) := by
  have hrec' : ∀ kv ∈ data, ∃ r, kv.2 = JVal.record r :=
    fun kv h => ⟨(hrec kv h).choose, (hrec kv h).choose_spec.1⟩
  have hallstr : ∀ fields csv rt,
      infer_fields_from_json data = .ok fields →
      json_to_csv_text data fields = .ok csv →
      csv_text_to_json csv fields false = .ok rt →
      ∀ p ∈ rt, ∀ q ∈ p.2, ∃ s, q.2 = Scalar.str s := by
    intro fields csv rt hinf hcsv hrt
    obtain ⟨rest, hfe, hidr, _, _⟩ := infer_fields_from_json_shape hinf
    subst hfe
    rw [csv_text_to_json_encoded data rest ("id" :: rest) false hrec' hidr csv hcsv]
      at hrt
    refine decodeRows_allStr ("id" :: rest) ("id" :: rest) _ [] rt hrt
      (fun f hf => hf) ?_ (by simp)
    intro row hrow
    obtain ⟨kv, _, rfl⟩ := List.mem_map.mp hrow
    exact (encodeRow_length _ _ _).symm
  refine ⟨hallstr, ?_⟩
  intro hnum b hb
  unfold verify_roundtrip at hb
  cases hinf : infer_fields_from_json data with
  | error e => rw [hinf, except_bind_err] at hb; simp at hb
  | ok fields =>
    rw [hinf, except_bind_ok] at hb
    cases hcsv : json_to_csv_text data fields with
    | error e => rw [hcsv, except_bind_err] at hb; simp at hb
    | ok csv =>
      rw [hcsv, except_bind_ok] at hb
      cases hrt : csv_text_to_json csv fields false with
      | error e => rw [hrt, except_bind_err] at hb; simp at hb
      | ok rt =>
        rw [hrt, except_bind_ok] at hb
        have hbval : b = pyEqRecordSet data rt := by
          simpa [except_pure_def] using hb.symm
        subst hbval
        by_contra hbne
        have htrue : pyEqRecordSet data rt = true := by
          cases hpe : pyEqRecordSet data rt
          · exact absurd hpe hbne
          · rfl
        obtain ⟨⟨k, v⟩, hkv, r, hr, ⟨fname, fval⟩, hfv, hnumv⟩ := hnum
        have hv : v = JVal.record r := hr
        subst hv
        have hstr := hallstr fields csv rt hinf hcsv hrt
        have hlk1 : data.lookup k = some (JVal.record r) :=
          lookup_some_of_mem_nodup hnodup hkv
        obtain ⟨rec', hlk2, heqv⟩ :=
          pyEqAssoc_lookup pyEqJVal (htrue : pyEqAssoc pyEqJVal data rt = true) hlk1
        have heqr : pyEqAssoc pyEqScalar r rec' = true := by
          simpa [pyEqJVal] using heqv
        have hrnodup : (r.map Prod.fst).Nodup := by
          obtain ⟨r2, hr2, hnd2⟩ := hrec (k, JVal.record r) hkv
          have hrr : r2 = r := by simpa using hr2.symm
          exact hrr ▸ hnd2
        have hlkf : r.lookup fname = some fval := lookup_some_of_mem_nodup hrnodup hfv
        obtain ⟨v', hlkv', heqs⟩ := pyEqAssoc_lookup pyEqScalar heqr hlkf
        obtain ⟨s, hs⟩ := hstr (k, rec') (mem_of_lookup_some hlk2) (fname, v')
          (mem_of_lookup_some hlkv')
        have hv' : v' = Scalar.str s := hs
        rw [hv', pyEqScalar_numeric_str hnumv s] at heqs
        cases heqs

theorem claim1_witness :
    (∀ b, verify_roundtrip [("k1", JVal.record [("x", Scalar.int 5)])] false = .ok b →
        b = false) ∧
    (verify_roundtrip [("k1", JVal.record [("x", Scalar.int 5)])] false).isOk = true :=
  ⟨(claim1_no_inference_roundtrip [("k1", JVal.record [("x", Scalar.int 5)])]
      (by decide)
      (fun kv hkv => by
        have hk := List.mem_singleton.mp hkv
        subst hk
        exact ⟨[("x", Scalar.int 5)], rfl, by decide⟩)).2
    ⟨("k1", JVal.record [("x", Scalar.int 5)]), List.mem_singleton.mpr rfl,
      [("x", Scalar.int 5)], rfl, ("x", Scalar.int 5), List.mem_singleton.mpr rfl, rfl⟩,
   by decide⟩

/-- C10 counterexample: the claim's "no error is raised" is not true of
every record set whose record contains an `id` field — a whitespace-only
key still makes the round-trip decode fail with `ValidationError`
(unrelated to the `id` field). -/
theorem claim10_counterexample :
    verify_roundtrip [("", JVal.record [("id", Scalar.str "x")])] false
      = .error .validationError := by decide

/-- C10 (amended): for a record set whose keys stay nonempty under
trimming and in which some record carries an `id` field, no error is
raised anywhere in the pipeline: inference silently drops `id` from the
derived field list, and after encode-then-decode every record (in
particular the one for that key) lacks the `id` field — it is silently
lost, not rejected. -/
theorem claim10_id_field_lost (data : RecordSet) (it : Bool)
    (hrec : ∀ kv ∈ data, ∃ r, kv.2 = JVal.record r)
    (hkeys : ∀ kv ∈ data, pyStrip kv.1 ≠ "")
    (hhasid : ∃ kv ∈ data, ∃ r, kv.2 = JVal.record r ∧ "id" ∈ r.map Prod.fst) :
    ∃ fields, infer_fields_from_json data = .ok fields ∧ "id" ∉ fields.tail ∧
      ∃ csv, json_to_csv_text data fields = .ok csv ∧
        ∃ rt, csv_text_to_json csv fields it = .ok rt ∧
          ∀ p ∈ rt, p.2.lookup "id" = none := by
  cases hinf : infer_fields_from_json data with
  | error e =>
    rw [infer_fields_from_json_ok data hrec] at hinf
    cases hinf
  | ok fields =>
    obtain ⟨rest, rfl, hidr, _, _⟩ := infer_fields_from_json_shape hinf
    have hcsv := json_to_csv_text_ok data ("id" :: rest) hrec
    refine ⟨"id" :: rest, rfl, by simpa using hidr, _, hcsv, ?_⟩
    rw [csv_text_to_json_encoded data rest ("id" :: rest) it hrec hidr _ hcsv]
    have hrows : ∀ row ∈ data.map fun kv => encodeRow ("id" :: rest) kv.1 (projRec kv.2),
        ("id" :: rest).length = row.length ∧ ridOf ("id" :: rest) row ≠ "" := by
      intro row hrow
      obtain ⟨kv, hkv, rfl⟩ := List.mem_map.mp hrow
      exact ⟨(encodeRow_length _ _ _).symm,
        by rw [ridOf_encodeRow rest hidr]; exact hkeys kv hkv⟩
    obtain ⟨rt, hrt⟩ := decodeRows_ok ("id" :: rest) ("id" :: rest) it
      (data.map fun kv => encodeRow ("id" :: rest) kv.1 (projRec kv.2)) []
      (fun f hf => hf) hrows
    exact ⟨rt, hrt, decodeRows_noid _ _ _ _ [] rt hrt (by simp)⟩

theorem claim10_witness :
    ∃ fields, infer_fields_from_json [("k", JVal.record [("id", Scalar.str "x")])]
        = .ok fields ∧ "id" ∉ fields.tail ∧
      ∃ csv, json_to_csv_text [("k", JVal.record [("id", Scalar.str "x")])] fields
          = .ok csv ∧
        ∃ rt, csv_text_to_json csv fields false = .ok rt ∧
          ∀ p ∈ rt, p.2.lookup "id" = none :=
  claim10_id_field_lost [("k", JVal.record [("id", Scalar.str "x")])] false
    (fun kv hkv => by
      have hk := List.mem_singleton.mp hkv
      subst hk
      exact ⟨[("id", Scalar.str "x")], rfl⟩)
    (fun kv hkv => by
      have hk := List.mem_singleton.mp hkv
      subst hk
      decide)
    ⟨("k", JVal.record [("id", Scalar.str "x")]), List.mem_singleton.mpr rfl,
      [("id", Scalar.str "x")], rfl, by decide⟩

end JsonCsv
